import Mathlib

/-!
Verification development for the audio-to-summary pipeline script
(`sum4u.py`).

The script is sequential glue: transcribe audio to subtitle blocks, strip
subtitle markup with two regex substitutions, split the plain text with
`textwrap.wrap`, and summarize each chunk through a remote chat API,
appending results to a file.

Strings are modelled as `List Char`.  The parts of the Python standard
library the script's behaviour depends on (`textwrap.wrap` with its
default options, `str.expandtabs`, `str.replace`, the two concrete
`re.sub` patterns) are embedded faithfully from their CPython sources
(CPython 3.11, `Lib/textwrap.py`); regular-expression character classes
`\w` / `\d` are modelled over their ASCII extent (`[A-Za-z0-9_]` /
`[0-9]`), which is exact for ASCII text.
-/

set_option autoImplicit false

namespace Sum4u

/-- Python string as a list of characters. -/
abbrev Str := List Char

/-- Sum of the lengths of a list of strings (`sum(map(len, l))`). -/
def sumLens (l : List Str) : Nat := (l.map List.length).sum

/-! ### Character classes

`textwrap._whitespace = '\t\n\x0b\x0c\r '` — the breaking whitespace
characters, hardcoded US-ASCII (see the comment in `textwrap.py`). -/

/-- Member of `textwrap._whitespace`. -/
def ws6 (c : Char) : Bool :=
  c = '\t' || c = '\n' || c = '\x0b' || c = '\x0c' || c = '\r' || c = ' '

/-- Characters stripped by Python `str.strip()` (Unicode whitespace:
the ASCII whitespace, the separator controls `\\x1c`-`\\x1f`, `\\x85`,
`\\xa0`, and the Unicode space separators). -/
def pyIsSpace (c : Char) : Bool :=
  ws6 c || (0x1c ≤ c.toNat && c.toNat ≤ 0x1f) || c.toNat = 0x85 ||
  c.toNat = 0xa0 || c.toNat = 0x1680 ||
  (0x2000 ≤ c.toNat && c.toNat ≤ 0x200a) || c.toNat = 0x2028 ||
  c.toNat = 0x2029 || c.toNat = 0x202f || c.toNat = 0x205f ||
  c.toNat = 0x3000

/-- Python `str.strip() == ''`: every character is whitespace. -/
def StripEmpty (s : Str) : Bool := s.all pyIsSpace

/-- Regex `\w` (word character), ASCII extent. -/
def wordChar (c : Char) : Bool := c.isAlphanum || c = '_'

/-- `textwrap` regex `letter = [^\d\W]` (word char that is not a digit),
ASCII extent. -/
def letterChar (c : Char) : Bool := c.isAlpha || c = '_'

/-- `textwrap` regex `word_punct = [\w!"\'&.,?]`, ASCII extent. -/
def wpChar (c : Char) : Bool :=
  wordChar c || c = '!' || c = '"' || c = '\'' || c = '&' || c = '.' ||
  c = ',' || c = '?'

/-! ### `str.expandtabs` and `TextWrapper._munge_whitespace` -/

/-- `str.expandtabs(tabsize)` (CPython): walk the string tracking the
column; a tab becomes `tabsize - col % tabsize` spaces (none if
`tabsize = 0`); `\n` and `\r` reset the column. -/
def expandTabsGo (tabsize : Nat) : Nat → Str → Str
  | _, [] => []
  | col, c :: cs =>
    if c = '\t' then
      if tabsize = 0 then expandTabsGo tabsize col cs
      else
        List.replicate (tabsize - col % tabsize) ' ' ++
          expandTabsGo tabsize (col + (tabsize - col % tabsize)) cs
    else if c = '\n' || c = '\r' then c :: expandTabsGo tabsize 0 cs
    else c :: expandTabsGo tabsize (col + 1) cs

/-- `text.expandtabs(tabsize)` starting at column 0. -/
def expandTabs (tabsize : Nat) (text : Str) : Str := expandTabsGo tabsize 0 text

/-- `TextWrapper._munge_whitespace` with the default options
(`expand_tabs=True, tabsize=8, replace_whitespace=True`):
expand tabs, then translate every `_whitespace` character to a space. -/
def munge (text : Str) : Str :=
  (expandTabs 8 text).map (fun c => if ws6 c then ' ' else c)

/-! ### `TextWrapper._split` (the `wordsep_re` scanner)

`wordsep_re` (with `break_on_hyphens=True`, the default) matches, in
order of alternatives: a run of whitespace; an em-dash `-{2,}` between a
word-punctuation character and a word character; or a lazy non-whitespace
run `\S+?` ended by a hyphenation point, by end of word (whitespace or end
of text), or just before an em-dash.  Every position starts a match, so
`re.split` on the capture partitions the text into these chunks; the
scanner below produces exactly the successive leftmost matches.
`rev` is the already-scanned prefix in reverse (for lookbehinds). -/

/-- Lookbehind `(?<=%(lt)s{2}-) | (?<=%(lt)s-%(lt)s-)` evaluated just
after the candidate hyphen; `rev` holds the characters before the hyphen,
nearest first. -/
def hyphLookbehind (rev : Str) : Bool :=
  match rev with
  | a :: b :: rest =>
    (letterChar a && letterChar b) ||
      (b = '-' &&
        (match rest with
         | b2 :: _ => letterChar a && letterChar b2
         | [] => false))
  | _ => false

/-- Lookahead `(?= %(lt)s -? %(lt)s)` on the text after the hyphen. -/
def hyphLookahead (rest : Str) : Bool :=
  match rest with
  | a :: '-' :: b :: _ => letterChar a && (letterChar b)
  | a :: b :: _ => letterChar a && letterChar b
  | _ => false

/-- Lookahead `(?=-{2,}\w)`: at least two hyphens followed by a word
character.  (Backtracking inside `-{2,}` cannot help: any shorter run is
followed by a hyphen, which is not `\w`, so the condition is equivalent
to: the maximal hyphen run has length ≥ 2 and is followed by `\w`.) -/
def emdashLookahead (l : Str) : Bool :=
  2 ≤ (l.takeWhile (· = '-')).length &&
    (match l.dropWhile (· = '-') with
     | y :: _ => wordChar y
     | [] => false)

/-- The tail alternatives of the word alternative `\S+?(...)`, tried at
each lazy expansion step.  `acc` is the reversed run of consumed
non-whitespace characters (nonempty), `rev` the reversed full prefix of
the text before the current position, `rest` the text after.  Returns
(matched chunk, remaining text). -/
def alt3Go : Str → Str → Str → Str × Str
  | acc, _, [] => (acc.reverse, [])
  | acc, rev, ch :: rest =>
    if ch = '-' && hyphLookbehind rev && hyphLookahead rest then
      (acc.reverse ++ ['-'], rest)
    else if ws6 ch then (acc.reverse, ch :: rest)
    else if (match rev with
             | x :: _ => wpChar x
             | [] => false) && emdashLookahead (ch :: rest) then
      (acc.reverse, ch :: rest)
    else alt3Go (ch :: acc) (ch :: rev) rest

/-- The em-dash alternative `(?<=%(wp)s) -{2,} (?=\w)` at the current
position (text is `l`, reversed prefix `rev`). -/
def emdashBetween (rev : Str) (l : Str) : Bool :=
  (match rev with
   | x :: _ => wpChar x
   | [] => false) && emdashLookahead l

/-- One leftmost `wordsep_re` match at the head of `c :: rest`
(`rev` = reversed text before it): whitespace run, em-dash run, or lazy
word.  Returns (chunk, remaining text). -/
def nextChunk (rev : Str) (c : Char) (rest : Str) : Str × Str :=
  if ws6 c then ((c :: rest).takeWhile ws6, (c :: rest).dropWhile ws6)
  else if emdashBetween rev (c :: rest) then
    ((c :: rest).takeWhile (· = '-'), (c :: rest).dropWhile (· = '-'))
  else alt3Go [c] (c :: rev) rest

/-- Iterate the scanner.  Each chunk consumes at least one character, so
`fuel := text.length` always suffices. -/
def splitGo : Nat → Str → Str → List Str
  | 0, _, _ => []
  | _ + 1, _, [] => []
  | fuel + 1, rev, c :: rest =>
    let p := nextChunk rev c rest
    p.1 :: splitGo fuel (p.1.reverse ++ rev) p.2

/-- `TextWrapper._split` with `break_on_hyphens=True`:
`wordsep_re.split` then discard empty strings. -/
def pySplit (text : Str) : List Str :=
  (splitGo text.length [] text).filter (fun c => !c.isEmpty)

/-- `TextWrapper._split_chunks`: munge whitespace, then split. -/
def splitChunks (text : Str) : List Str := pySplit (munge text)

/-! ### `TextWrapper._wrap_chunks`

Ported with the `textwrap.wrap` defaults: `initial_indent` and
`subsequent_indent` empty (so each line's width is `self.width`),
`drop_whitespace=True`, `break_long_words=True`, `break_on_hyphens=True`,
`max_lines=None`.  The chunk stack is kept in forward order (the list
head is Python's `chunks[-1]`). -/

/-- The first-chunk-on-line whitespace drop: `if drop_whitespace and
chunks[-1].strip() == '' and lines: del chunks[-1]` (`first` means no
line has been emitted yet). -/
def dropLeadWs (first : Bool) : List Str → List Str
  | [] => []
  | c :: cs => if !first && StripEmpty c then cs else c :: cs

/-- The greedy inner loop: move chunks onto the current line while
`cur_len + len(chunk) <= width`.  Returns (moved chunks, remaining). -/
def takeFits (w : Nat) : Nat → List Str → List Str × List Str
  | _, [] => ([], [])
  | cl, c :: cs =>
    if cl + c.length ≤ w then
      let p := takeFits w (cl + c.length) cs
      (c :: p.1, p.2)
    else ([], c :: cs)

/-- `chunk.rfind('-', 0, sl)`: index of the last hyphen among the first
`sl` characters, if any. -/
def rfindHyphen (r : Str) (sl : Nat) : Option Nat :=
  (List.range sl).reverse.find? (fun h => r.get? h = some '-')

/-- The split position `end` computed by `TextWrapper._handle_long_word`:
`space_left` characters (at least one when the width is degenerate), or
just after the last hyphen among them when breaking on hyphens applies. -/
def hlwEnd (w cl : Nat) (r : Str) : Nat :=
  let sl := if w < 1 then 1 else w - cl
  if sl < r.length then
    match rfindHyphen r sl with
    | some h =>
      if 0 < h && (r.take h).any (fun c => c ≠ '-') then h + 1 else sl
    | none => sl
  else sl

/-- `TextWrapper._handle_long_word` (with `break_long_words=True`,
`break_on_hyphens=True`): split the head chunk `r`, putting `r[:end]` on
the current line and pushing `r[end:]` back. -/
def handleLongWord (w cl : Nat) (curLine : List Str) (r : Str)
    (rs : List Str) : List Str × List Str :=
  (curLine ++ [r.take (hlwEnd w cl r)], r.drop (hlwEnd w cl r) :: rs)

/-- `if chunks and len(chunks[-1]) > width: self._handle_long_word(...)`. -/
def maybeLong (w : Nat) (curLine : List Str) : List Str → List Str × List Str
  | [] => (curLine, [])
  | r :: rs =>
    if w < r.length then handleLongWord w (sumLens curLine) curLine r rs
    else (curLine, r :: rs)

/-- `if drop_whitespace and cur_line and cur_line[-1].strip() == '':
del cur_line[-1]` — drop the last piece of the line if it is all
whitespace (a single `del`). -/
def dropTrailWs : List Str → List Str
  | [] => []
  | [x] => if StripEmpty x then [] else [x]
  | x :: y :: ys => x :: dropTrailWs (y :: ys)

/-- The body of one `while chunks:` iteration after the leading
whitespace drop: greedy fill, long-word handling, trailing whitespace
drop; emit the joined line if `cur_line` is nonempty. -/
def wrapCore (w : Nat) (chunks0 : List Str) : Option Str × List Str :=
  let q := maybeLong w (takeFits w 0 chunks0).1 (takeFits w 0 chunks0).2
  let curLine := dropTrailWs q.1
  (if curLine.isEmpty then none else some curLine.flatten, q.2)

/-- One iteration of the `while chunks:` loop of `_wrap_chunks`:
returns (emitted line, if any; whether still before the first line;
remaining chunks). -/
def wrapStep (w : Nat) (first : Bool) (chunks : List Str) :
    Option Str × Bool × List Str :=
  let r := wrapCore w (dropLeadWs first chunks)
  (r.1, if r.1.isSome then false else first, r.2)

/-- The `while chunks:` loop.  Every iteration strictly decreases
`phiChunks`, so `fuel := phiChunks chunks + 1` always suffices. -/
def wrapRun (w : Nat) : Nat → Bool → List Str → List Str
  | 0, _, _ => []
  | _ + 1, _, [] => []
  | fuel + 1, first, c :: cs =>
    match wrapStep w first (c :: cs) with
    | (none, first2, rest) => wrapRun w fuel first2 rest
    | (some l, first2, rest) => l :: wrapRun w fuel first2 rest

/-- Termination measure for `wrapRun`: total length plus count of the
pending chunks. -/
def phiChunks (chunks : List Str) : Nat := sumLens chunks + chunks.length

/-- `textwrap.wrap(text, width)` with all-default options:
`none` models the `ValueError` raised when `width <= 0` (the width is a
`Nat` here, so only `0`). -/
def pyWrap (text : Str) (width : Nat) : Option (List Str) :=
  if width = 0 then none
  else
    let chunks := splitChunks text
    some (wrapRun width (phiChunks chunks + 1) true chunks)

/-- `chunk_text(text, max_length)` from `sum4u.py`:
`return textwrap.wrap(text, max_length)`. -/
def chunk_text (text : Str) (max_length : Nat) : Option (List Str) :=
  pyWrap text max_length

/-! ### The two `re.sub` calls of `extract_and_save_text`

Pattern 1: `r'\d+\n\d{2}:\d{2}:\d{2},\d{3} --> \d{2}:\d{2}:\d{2},\d{3}\n'`
replaced by `''`; pattern 2: `r'\n\n+'` replaced by `'\n'`.  Both are
implemented as left-to-right scanners over the text, exactly the
(leftmost, non-overlapping) semantics of `re.sub`. -/

/-- Match a list of character predicates against a prefix of `l`,
returning the remainder on success. -/
def matchPat : List (Char → Bool) → Str → Option Str
  | [], l => some l
  | _ :: _, [] => none
  | p :: ps, c :: l => if p c then matchPat ps l else none

/-- One timestamp field pair:
`\d{2}:\d{2}:\d{2},\d{3}` as 12 character predicates. -/
def tsHalf : List (Char → Bool) :=
  [Char.isDigit, Char.isDigit, (· = ':'), Char.isDigit, Char.isDigit,
   (· = ':'), Char.isDigit, Char.isDigit, (· = ','), Char.isDigit,
   Char.isDigit, Char.isDigit]

/-- `\d{2}:\d{2}:\d{2},\d{3} --> \d{2}:\d{2}:\d{2},\d{3}` as a list of
character predicates. -/
def tsPattern : List (Char → Bool) :=
  tsHalf ++
    ([(· = ' '), (· = '-'), (· = '-'), (· = '>'), (· = ' ')] :
      List (Char → Bool)) ++ tsHalf

/-- `l` is exactly a timestamp line. -/
def isTsLine (l : Str) : Bool := matchPat tsPattern l = some []

/-- Try the block pattern `\d+\n<timestamp>\n` at the head of `l`; on a
match return the remainder.  (`\d+` is greedy; backtracking cannot help,
since a shorter digit run is followed by a digit, not `\n`.) -/
def matchAt (l : Str) : Option Str :=
  if (l.takeWhile Char.isDigit).isEmpty then none
  else
    match l.dropWhile Char.isDigit with
    | '\n' :: r1 =>
      match matchPat tsPattern r1 with
      | some ('\n' :: r3) => some r3
      | _ => none
    | _ => none

/-- `re.sub(pattern1, '', content)` as a scanner.  The second argument
counts characters still to skip from a previous match (every match is at
least 31 characters long, so the skip form keeps the recursion
structural). -/
def sub1Auto : Str → Nat → Str
  | [], _ => []
  | _ :: rest, s + 1 => sub1Auto rest s
  | c :: rest, 0 =>
    match matchAt (c :: rest) with
    | some r => sub1Auto rest (rest.length - r.length)
    | none => c :: sub1Auto rest 0

/-- First substitution: remove every `index/timestamp` line pair. -/
def sub1 (l : Str) : Str := sub1Auto l 0

/-- `re.sub(r'\n\n+', '\n', text)`: collapse every run of two or more
newlines to one.  Equivalently (and structurally): drop each newline that
is immediately followed by another. -/
def sub2 : Str → Str
  | [] => []
  | [c] => [c]
  | c :: d :: rest =>
    if c = '\n' && d = '\n' then sub2 (d :: rest)
    else c :: sub2 (d :: rest)

/-- The pure text transformation of `extract_and_save_text`:
both substitutions in order. -/
def extractText (content : Str) : Str := sub2 (sub1 content)

/-! ### Subtitle blocks and the transcriber

`speech_recognition` builds `srt.Subtitle(index=i, start=…, end=…,
content=segment["text"])` for `i, segment in enumerate(...)` and writes
`srt.compose(subtitles)`. -/

/-- Decimal digits of a natural number (`str(n)`). -/
def natDigitsGo : Nat → Nat → Str → Str
  | 0, _, acc => acc
  | f + 1, n, acc =>
    if n < 10 then Char.ofNat (48 + n) :: acc
    else natDigitsGo f (n / 10) (Char.ofNat (48 + n % 10) :: acc)

/-- Decimal representation of a natural number. -/
def natDigits (n : Nat) : Str := natDigitsGo (n + 1) n []

/-- One subtitle block: numeric index, timestamp line, text. -/
structure SrtBlock where
  index : Nat
  ts : Str
  text : Str
deriving DecidableEq

/-- Modelled from the spec: the `srt` library's `compose` (the library
source is not part of this repository).  Per the spec, the written file
has "one block per segment, 0-based sequential indices" in the standard
timed-caption format — each block is serialized as its index line, its
timestamp line, its text, and a blank separator line, in list order. -/
def composeBlocks (bs : List SrtBlock) : Str :=
  (bs.map (fun b =>
    natDigits b.index ++ '\n' :: b.ts ++ '\n' :: b.text ++ ['\n', '\n'])).flatten

/-- A transcription segment `{start, end, text}` (the time type is
abstract; `stop` renders the source's `end`, a Lean keyword). -/
structure Segment (τ : Type) where
  start : τ
  stop : τ
  text : Str

/-- The subtitle list built by `speech_recognition`'s loop:
`srt.Subtitle(index=i, start=…, end=…, content=text)` for
`i, segment in enumerate(transcription["segments"])`; `tsR` renders a
start/end pair as the timestamp line. -/
def srtSubtitles {τ : Type} (tsR : τ → τ → Str) (segs : List (Segment τ)) :
    List SrtBlock :=
  segs.enum.map (fun p => ⟨p.1, tsR p.2.start p.2.stop, p.2.text⟩)

/-! ### In-memory file system

`'w'` mode truncates and writes; `'a'` mode appends, creating the file
if absent. -/

/-- File system: map from path to contents (if the file exists). -/
def FS : Type := Str → Option Str

/-- `open(path, "w")` followed by `write(content)`. -/
def writeFile (fs : FS) (path content : Str) : FS :=
  fun q => if q = path then some content else fs q

/-- `open(path, "a")` followed by `write(content)`. -/
def appendFile (fs : FS) (path content : Str) : FS :=
  fun q => if q = path then some ((fs path).getD [] ++ content) else fs q

/-- The write side of `speech_recognition`: compose the subtitles built
from the transcription segments and write them to the subtitle path in
`'w'` mode.  (The whisper transcription itself is external; its segment
list is this function's input.) -/
def speech_recognition {τ : Type} (tsR : τ → τ → Str)
    (segs : List (Segment τ)) (output_subtitle_path : Str) (fs : FS) : FS :=
  writeFile fs output_subtitle_path (composeBlocks (srtSubtitles tsR segs))

/-- `extract_and_save_text(srt_filename, output_filename)`: read the
subtitle file, apply both substitutions, write the result in `'w'` mode
and also return it. -/
def extract_and_save_text (fs : FS) (srt_filename output_filename : Str) :
    FS × Str :=
  let pure_text := extractText ((fs srt_filename).getD [])
  (writeFile fs output_filename pure_text, pure_text)

/-! ### The chat API and the summarization loop -/

/-- One role-tagged chat message. -/
structure ChatMsg where
  role : Str
  content : Str
deriving DecidableEq

/-- The request `client.chat.completions.create` is invoked with:
the message list and the model name (and nothing else — see
`summarization`). -/
structure ChatRequest where
  messages : List ChatMsg
  model : Str
deriving DecidableEq

/-- The request built inside `summarization`: the fixed system message
plus the prompt as the single user message, with the model name. -/
def summarizationRequest (summarization_prompt model_name : Str) :
    ChatRequest :=
  { messages :=
      [⟨"system".toList, "You are a helpful assistant.".toList⟩,
       ⟨"user".toList, summarization_prompt⟩],
    model := model_name }

/-- `summarization(client, summarization_prompt, model_name, temperature,
top_p, max_tokens)`: calls the completion API with only the messages and
the model — the three tuning parameters are accepted (defaults `0.0`,
`1.0`, `512`) but, as in the source (where they are commented out), never
passed to the call.  The remote call may fail (`Except`). -/
def summarization {ε : Type} (client : ChatRequest → Except ε Str)
    (summarization_prompt model_name : Str)
    (temperature top_p : ℚ) (max_tokens : Nat) : Except ε Str :=
  client (summarizationRequest summarization_prompt model_name)

/-- Python `str.replace(old, new)` (all non-overlapping occurrences, left
to right); the skip counter keeps the recursion structural.  Faithful for
nonempty `old` (the script only uses `old = "<text>"`). -/
def replaceAux (old new : Str) : Str → Nat → Str
  | [], _ => []
  | _ :: rest, s + 1 => replaceAux old new rest s
  | c :: rest, 0 =>
    if old.isPrefixOf (c :: rest) then
      new ++ replaceAux old new rest (old.length - 1)
    else c :: replaceAux old new rest 0

/-- `s.replace(old, new)`. -/
def pyReplace (s old new : Str) : Str := replaceAux old new s 0

/-- `summarization_prompt_template` (the colon is U+FF1A, as in the
source). -/
def summarization_prompt_template : Str :=
  "Generate a summary within few sentences：<text>".toList

/-- The prompt for one chunk:
`summarization_prompt_template.replace("<text>", chunk)`. -/
def promptFor (chunk : Str) : Str :=
  pyReplace summarization_prompt_template "<text>".toList chunk

/-- `model_name = 'gpt-4o'` at the time of the loop. -/
def gptModelName : Str := "gpt-4o".toList

/-- `<output_dir>/summary.txt`. -/
def summaryPath (output_dir : Str) : Str := output_dir ++ "/summary.txt".toList

/-- `<output_dir>/subtitle.srt`. -/
def subtitlePath (output_dir : Str) : Str :=
  output_dir ++ "/subtitle.srt".toList

/-- `<output_dir>/raw_sub.txt`. -/
def rawSubPath (output_dir : Str) : Str := output_dir ++ "/raw_sub.txt".toList

/-- The summarization loop: for each chunk in order, build the prompt,
call the API, and append the returned summary to `summary.txt` (opened in
`'a'` mode each iteration, so each summary is flushed before the next
call).  Returns the file system, the number of API calls made, and the
first error if one occurred (an uncaught exception aborts the loop; later
chunks are not processed). -/
def summaryLoop {ε : Type} (client : ChatRequest → Except ε Str)
    (model_name output_dir : Str) (fs : FS) :
    List Str → FS × Nat × Option ε
  | [] => (fs, 0, none)
  | c :: cs =>
    match summarization client (promptFor c) model_name 0 1 512 with
    | .error e => (fs, 1, some e)
    | .ok s =>
      let r := summaryLoop client model_name output_dir
        (appendFile fs (summaryPath output_dir) s) cs
      (r.1, r.2.1 + 1, r.2.2)

/-- The whole pipeline after transcription, as run by the script's top
level: write `subtitle.srt`, read it back, extract and write
`raw_sub.txt`, chunk with width 512, then run the summarization loop. -/
def runPipeline {τ ε : Type} (tsR : τ → τ → Str)
    (segs : List (Segment τ)) (client : ChatRequest → Except ε Str)
    (output_dir : Str) (fs : FS) : FS × Nat × Option ε :=
  let fs1 := speech_recognition tsR segs (subtitlePath output_dir) fs
  let p := extract_and_save_text fs1 (subtitlePath output_dir)
    (rawSubPath output_dir)
  let chunks := (chunk_text p.2 512).getD []
  summaryLoop client gptModelName output_dir p.1 chunks

/-! ### Small helpers for the theorem statements -/

/-- `pat` occurs as a contiguous substring of `l`. -/
def containsSub (pat : Str) : Str → Bool
  | [] => pat.isEmpty
  | c :: rest => pat.isPrefixOf (c :: rest) || containsSub pat rest

/-- Split a string at a separator character (the pieces, separators
removed; `n + 1` pieces for `n` separators). -/
def splitOnChar (sep : Char) : Str → List Str
  | [] => [[]]
  | c :: rest =>
    if c = sep then [] :: splitOnChar sep rest
    else
      match splitOnChar sep rest with
      | l :: ls => (c :: l) :: ls
      | [] => [[c]]

/-- The lines of a text (split at newlines). -/
def linesOf (t : Str) : List Str := splitOnChar '\n' t

/-- The whitespace-delimited words of a text (split at spaces, empty
pieces dropped). -/
def wordsOf (t : Str) : List Str :=
  (splitOnChar ' ' t).filter (fun w => !w.isEmpty)

/-- The text contains two consecutive newlines (a run of more than one
blank-line separator). -/
def hasNN : Str → Bool
  | c :: d :: rest => (c = '\n' && d = '\n') || hasNN (d :: rest)
  | _ => false

/-- `lines` concatenated in order with (strippable) whitespace inserted
at the seams reproduces `t`: `t = s₀ ++ l₁ ++ s₁ ++ … ++ lₙ ++ sₙ` with
every `sᵢ` all-whitespace. -/
def IsSpacedJoin : List Str → Str → Prop
  | [], t => StripEmpty t = true
  | l :: ls, t =>
    ∃ s rest, StripEmpty s = true ∧ IsSpacedJoin ls rest ∧ t = s ++ l ++ rest

/-! ## Lemmas: generic list facts -/

theorem takeWhile_all_eq {p : Char → Bool} :
    ∀ {l : Str}, l.all p = true → l.takeWhile p = l := by
  intro l h
  induction l with
  | nil => rfl
  | cons c cs ih =>
    simp only [List.all_cons, Bool.and_eq_true] at h
    simp [List.takeWhile_cons, h.1, ih h.2]

theorem sumLens_nil : sumLens [] = 0 := rfl

theorem sumLens_cons (c : Str) (l : List Str) :
    sumLens (c :: l) = c.length + sumLens l := by
  simp [sumLens]

theorem sumLens_append (a b : List Str) :
    sumLens (a ++ b) = sumLens a + sumLens b := by
  simp [sumLens]

theorem length_flatten_eq (l : List Str) : l.flatten.length = sumLens l := by
  induction l with
  | nil => simp [sumLens]
  | cons c cs ih => simp [sumLens_cons, ih]

theorem StripEmpty_append {a b : Str} (ha : StripEmpty a = true)
    (hb : StripEmpty b = true) : StripEmpty (a ++ b) = true := by
  simp only [StripEmpty, List.all_append, Bool.and_eq_true]
  exact ⟨ha, hb⟩

theorem IsSpacedJoin_prepend {ls : List Str} {t d : Str}
    (hd : StripEmpty d = true) (h : IsSpacedJoin ls t) :
    IsSpacedJoin ls (d ++ t) := by
  cases ls with
  | nil => exact StripEmpty_append hd h
  | cons l ls =>
    obtain ⟨s, rest, hs, hrest, ht⟩ := h
    exact ⟨d ++ s, rest, StripEmpty_append hd hs, hrest, by simp [ht]⟩

/-! ## Lemmas: the `wordsep_re` scanner -/

theorem alt3Go_spec :
    ∀ (acc rev rest : Str),
      (alt3Go acc rev rest).1 ++ (alt3Go acc rev rest).2 = acc.reverse ++ rest ∧
      (acc ≠ [] → (alt3Go acc rev rest).1 ≠ []) := by
  intro acc rev rest
  induction acc, rev, rest using alt3Go.induct with
  | case1 acc rev => simp [alt3Go]
  | case2 acc rev ch rest h1 =>
    rw [alt3Go.eq_def]; simp only []; rw [if_pos h1]
    have hch : ch = '-' := by
      simp only [Bool.and_eq_true, decide_eq_true_eq] at h1
      exact h1.1.1
    constructor
    · simp [hch]
    · intro _; simp
  | case3 acc rev ch rest h1 h2 =>
    rw [alt3Go.eq_def]; simp only []; rw [if_neg h1, if_pos h2]
    exact ⟨rfl, fun h => by simpa using h⟩
  | case4 acc rev ch rest h1 h2 h3 =>
    rw [alt3Go.eq_def]; simp only []; rw [if_neg h1, if_neg h2, if_pos h3]
    exact ⟨rfl, fun h => by simpa using h⟩
  | case5 acc rev ch rest h1 h2 h3 ih =>
    rw [alt3Go.eq_def]; simp only []; rw [if_neg h1, if_neg h2, if_neg h3]
    obtain ⟨ha, hb⟩ := ih
    constructor
    · rw [ha]; simp
    · intro _; exact hb (by simp)

theorem nextChunk_spec (rev : Str) (c : Char) (rest : Str) :
    (nextChunk rev c rest).1 ++ (nextChunk rev c rest).2 = c :: rest ∧
    (nextChunk rev c rest).1 ≠ [] := by
  by_cases h1 : ws6 c = true
  · rw [nextChunk, if_pos h1]
    refine ⟨List.takeWhile_append_dropWhile _ _, ?_⟩
    simp [List.takeWhile_cons, h1]
  · by_cases h2 : emdashBetween rev (c :: rest) = true
    · rw [nextChunk, if_neg h1, if_pos h2]
      refine ⟨List.takeWhile_append_dropWhile _ _, ?_⟩
      have h3 : 2 ≤ ((c :: rest).takeWhile (· = '-')).length := by
        simp only [emdashBetween, emdashLookahead, Bool.and_eq_true,
          decide_eq_true_eq] at h2
        exact h2.2.1
      intro hnil
      have hnil' : (c :: rest).takeWhile (· = '-') = [] := hnil
      rw [hnil'] at h3
      simp at h3
    · rw [nextChunk, if_neg h1, if_neg h2]
      obtain ⟨ha, hb⟩ := alt3Go_spec [c] (c :: rev) rest
      exact ⟨by simpa using ha, hb (by simp)⟩

theorem splitGo_nil (fuel : Nat) (rev : Str) : splitGo fuel rev [] = [] := by
  cases fuel <;> rfl

theorem splitGo_flatten :
    ∀ (fuel : Nat) (rev rest : Str), rest.length ≤ fuel →
      (splitGo fuel rev rest).flatten = rest := by
  intro fuel
  induction fuel with
  | zero =>
    intro rev rest h
    have : rest = [] := List.eq_nil_of_length_eq_zero (Nat.le_zero.mp h)
    subst this
    rfl
  | succ fuel ih =>
    intro rev rest h
    cases rest with
    | nil => rfl
    | cons c rest =>
      rw [splitGo]
      obtain ⟨hpart, hne⟩ := nextChunk_spec rev c rest
      rw [List.length_cons] at h
      have hlen : (nextChunk rev c rest).2.length ≤ fuel := by
        have h1 : (nextChunk rev c rest).1.length +
            (nextChunk rev c rest).2.length = rest.length + 1 := by
          have := congrArg List.length hpart
          simpa using this
        have h2 : 1 ≤ (nextChunk rev c rest).1.length :=
          Nat.one_le_iff_ne_zero.mpr (by
            simpa [List.length_eq_zero] using hne)
        omega
      simp only [List.flatten_cons]
      rw [ih _ _ hlen, hpart]

theorem flatten_filter_nonempty (l : List Str) :
    (l.filter (fun c => !c.isEmpty)).flatten = l.flatten := by
  induction l with
  | nil => rfl
  | cons c cs ih =>
    cases c with
    | nil => simpa [List.filter] using ih
    | cons x xs => simp [List.filter, ih]

theorem pySplit_flatten (t : Str) : (pySplit t).flatten = t := by
  rw [pySplit, flatten_filter_nonempty]
  exact splitGo_flatten _ _ _ (Nat.le_refl _)

theorem pySplit_ne_nil {t : Str} : ∀ c ∈ pySplit t, c ≠ [] := by
  intro c hc
  rw [pySplit] at hc
  have := List.of_mem_filter hc
  simpa [List.isEmpty_iff] using this

theorem splitChunks_flatten (t : Str) : (splitChunks t).flatten = munge t :=
  pySplit_flatten _

/-! ## Lemmas: whitespace munging -/

theorem expandTabsGo_all_ws6 {t : Str} (h : t.all ws6 = true) :
    ∀ col, (expandTabsGo 8 col t).all ws6 = true := by
  induction t with
  | nil => intro col; rfl
  | cons c cs ih =>
    intro col
    simp only [List.all_cons, Bool.and_eq_true] at h
    rw [expandTabsGo]
    by_cases h1 : c = '\t'
    · rw [if_pos h1, if_neg (by norm_num : ¬(8 : Nat) = 0)]
      simp only [List.all_append, Bool.and_eq_true]
      refine ⟨?_, ih h.2 _⟩
      rw [List.all_eq_true]
      intro x hx
      rw [List.eq_of_mem_replicate hx]
      decide
    · rw [if_neg h1]
      by_cases h2 : (c = '\n' || c = '\r') = true
      · rw [if_pos h2]
        simp only [List.all_cons, Bool.and_eq_true]
        exact ⟨h.1, ih h.2 _⟩
      · rw [if_neg h2]
        simp only [List.all_cons, Bool.and_eq_true]
        exact ⟨h.1, ih h.2 _⟩

theorem munge_all_space {t : Str} (h : t.all ws6 = true) :
    (munge t).all (fun c => c = ' ') = true := by
  rw [munge]
  have hexp := expandTabsGo_all_ws6 h 0
  rw [List.all_eq_true] at hexp ⊢
  intro x hx
  obtain ⟨y, hy, hyx⟩ := List.mem_map.mp hx
  have := hexp y hy
  simp only [this, if_true] at hyx
  simp [← hyx]

theorem munge_no_newline (t : Str) : '\n' ∉ munge t := by
  rw [munge]
  intro hmem
  obtain ⟨y, _, hyx⟩ := List.mem_map.mp hmem
  by_cases h : ws6 y = true
  · rw [if_pos h] at hyx; exact absurd hyx (by decide)
  · rw [if_neg h] at hyx
    rw [hyx] at h
    exact h (by decide)

theorem pySplit_all_space {t : Str} (h : t.all (fun c => c = ' ') = true) :
    pySplit t = [] ∨ (t ≠ [] ∧ pySplit t = [t]) := by
  cases t with
  | nil => left; rfl
  | cons c rest =>
    right
    refine ⟨by simp, ?_⟩
    have hall : (c :: rest).all ws6 = true := by
      rw [List.all_eq_true] at h ⊢
      intro x hx
      have hx' : x = ' ' := by simpa using h x hx
      rw [hx']
      decide
    have hc : ws6 c = true := by
      rw [List.all_eq_true] at hall
      exact hall c (by simp)
    have hdrop : (c :: rest).dropWhile ws6 = [] := by
      rw [List.dropWhile_eq_nil_iff]
      intro x hx
      rw [List.all_eq_true] at hall
      exact hall x hx
    have hchunk : nextChunk [] c rest = (c :: rest, []) := by
      rw [nextChunk, if_pos hc, takeWhile_all_eq hall, hdrop]
    rw [pySplit, List.length_cons, splitGo]
    simp only [hchunk, splitGo_nil]
    simp [List.filter]

/-! ## Lemmas: the wrap loop -/

theorem phiChunks_cons (c : Str) (cs : List Str) :
    phiChunks (c :: cs) = c.length + 1 + phiChunks cs := by
  simp [phiChunks, sumLens_cons]
  omega

theorem phiChunks_append (a b : List Str) :
    phiChunks (a ++ b) = sumLens a + a.length + phiChunks b := by
  simp [phiChunks, sumLens_append]
  omega

theorem dropLeadWs_cases (first : Bool) (chunks : List Str) :
    dropLeadWs first chunks = chunks ∨
      ∃ c cs, chunks = c :: cs ∧ StripEmpty c = true ∧
        dropLeadWs first chunks = cs := by
  cases chunks with
  | nil => left; rfl
  | cons c cs =>
    rw [dropLeadWs]
    by_cases h : (!first && StripEmpty c) = true
    · right
      refine ⟨c, cs, rfl, ?_, by rw [if_pos h]⟩
      simp only [Bool.and_eq_true] at h
      exact h.2
    · left
      rw [if_neg h]

theorem dropTrailWs_cases :
    ∀ l : List Str, dropTrailWs l = l ∨
      ∃ init x, l = init ++ [x] ∧ StripEmpty x = true ∧
        dropTrailWs l = init := by
  intro l
  induction l with
  | nil => left; rfl
  | cons x xs ih =>
    cases xs with
    | nil =>
      by_cases h : StripEmpty x = true
      · right
        exact ⟨[], x, rfl, h, by rw [dropTrailWs, if_pos h]⟩
      · left
        rw [dropTrailWs, if_neg h]
    | cons y ys =>
      have hstep : dropTrailWs (x :: y :: ys) = x :: dropTrailWs (y :: ys) :=
        rfl
      rcases ih with h | ⟨init, z, happ, hs, hdt⟩
      · left
        rw [hstep, h]
      · right
        exact ⟨x :: init, z, by simp [happ], hs, by rw [hstep, hdt]⟩

theorem takeFits_append (w : Nat) :
    ∀ (chunks : List Str) (cl : Nat),
      (takeFits w cl chunks).1 ++ (takeFits w cl chunks).2 = chunks := by
  intro chunks
  induction chunks with
  | nil => intro cl; rfl
  | cons c cs ih =>
    intro cl
    rw [takeFits]
    by_cases h : cl + c.length ≤ w
    · rw [if_pos h]
      simpa using ih (cl + c.length)
    · rw [if_neg h]
      rfl

theorem takeFits_sum (w : Nat) :
    ∀ (chunks : List Str) (cl : Nat), cl ≤ w →
      cl + sumLens (takeFits w cl chunks).1 ≤ w := by
  intro chunks
  induction chunks with
  | nil =>
    intro cl h
    simpa [takeFits, sumLens] using h
  | cons c cs ih =>
    intro cl h
    rw [takeFits]
    by_cases hfit : cl + c.length ≤ w
    · rw [if_pos hfit]
      have := ih (cl + c.length) hfit
      simp only [sumLens_cons]
      omega
    · rw [if_neg hfit]
      simpa [sumLens] using h

theorem takeFits_empty_head (w cl : Nat) (c : Str) (cs : List Str)
    (h : (takeFits w cl (c :: cs)).1 = []) : w < cl + c.length := by
  rw [takeFits] at h
  by_cases hfit : cl + c.length ≤ w
  · rw [if_pos hfit] at h
    simp at h
  · omega

theorem rfindHyphen_lt {r : Str} {sl h : Nat}
    (hfind : rfindHyphen r sl = some h) : h < sl := by
  have hmem : h ∈ (List.range sl).reverse := List.mem_of_find?_eq_some hfind
  rw [List.mem_reverse, List.mem_range] at hmem
  exact hmem

theorem hlwEnd_sl_le (w cl : Nat) (r : Str) :
    hlwEnd w cl r ≤ (if w < 1 then 1 else w - cl) := by
  simp only [hlwEnd]
  set sl := if w < 1 then 1 else w - cl with hsl
  split
  · split
    · rename_i h heq
      split
      · have := rfindHyphen_lt heq
        omega
      · omega
    · omega
  · omega

theorem hlwEnd_one_le (w : Nat) (r : Str) : 1 ≤ hlwEnd w 0 r := by
  simp only [hlwEnd]
  set sl := if w < 1 then 1 else w - 0 with hsl
  have h1 : 1 ≤ sl := by
    rw [hsl]
    split <;> omega
  split
  · split
    · rename_i h heq
      split
      · omega
      · exact h1
    · exact h1
  · exact h1

theorem hlwEnd_lt (w cl : Nat) (r : Str) (hw : 1 ≤ w)
    (hguard : w < r.length) : hlwEnd w cl r < r.length := by
  have hle := hlwEnd_sl_le w cl r
  rw [if_neg (by omega : ¬w < 1)] at hle
  omega

theorem hlwEnd_add_le (w cl : Nat) (r : Str) (hw : 1 ≤ w) (hcl : cl ≤ w) :
    cl + hlwEnd w cl r ≤ w := by
  have hle := hlwEnd_sl_le w cl r
  rw [if_neg (by omega : ¬w < 1)] at hle
  omega

theorem phiChunks_pos {l : List Str} (h : l ≠ []) : 1 ≤ phiChunks l := by
  cases l with
  | nil => exact absurd rfl h
  | cons c cs =>
    rw [phiChunks_cons]
    omega

theorem flatten_ne_nil {l : List Str} (hne : l ≠ [])
    (hok : ∀ c ∈ l, c ≠ []) : l.flatten ≠ [] := by
  cases l with
  | nil => exact absurd rfl hne
  | cons c cs =>
    have hc : c ≠ [] := hok c (by simp)
    simp only [List.flatten_cons, ne_eq, List.append_eq_nil]
    intro h
    exact hc h.1

theorem append_singleton_inj {a b : List Str} {x y : Str}
    (h : a ++ [x] = b ++ [y]) : a = b ∧ x = y := by
  have h2 := List.append_inj' h rfl
  refine ⟨h2.1, ?_⟩
  have := h2.2
  simpa using this

theorem flatten_split_piece (m : List Str) (r : Str) (rs : List Str)
    (e : Nat) :
    (m ++ [r.take e]).flatten ++ (r.drop e :: rs).flatten =
      (m ++ r :: rs).flatten := by
  simp only [List.flatten_append, List.flatten_cons, List.flatten_nil,
    List.append_nil, List.append_assoc]
  rw [← List.append_assoc (r.take e) (r.drop e), List.take_append_drop]

/-- Everything the run-level proofs need about one `wrapCore` call:
the consumed text is conserved up to dropped whitespace, the measure
strictly decreases, an emitted line is short and (for nonempty chunks)
nonempty, and the remaining chunks stay nonempty. -/
theorem wrapCore_spec (w : Nat) (chunks0 : List Str) (hw : 1 ≤ w) :
    ∃ d2, StripEmpty d2 = true ∧
      chunks0.flatten =
        ((wrapCore w chunks0).1.getD []) ++ d2 ++
          (wrapCore w chunks0).2.flatten ∧
      (chunks0 ≠ [] → phiChunks (wrapCore w chunks0).2 < phiChunks chunks0) ∧
      (∀ l, (wrapCore w chunks0).1 = some l →
        l.length ≤ w ∧ ((∀ c ∈ chunks0, c ≠ []) → l ≠ [])) ∧
      ((∀ c ∈ chunks0, c ≠ []) →
        ∀ x ∈ (wrapCore w chunks0).2, x ≠ []) := by
  rcases htf : takeFits w 0 chunks0 with ⟨moved, rest⟩
  have hmr : moved ++ rest = chunks0 := by
    have h := takeFits_append w chunks0 0
    rw [htf] at h
    exact h
  have hsum : sumLens moved ≤ w := by
    have h := takeFits_sum w chunks0 0 (by omega)
    rw [htf] at h
    simpa using h
  have hmem_moved : ∀ x ∈ moved, x ∈ chunks0 := by
    intro x hx
    rw [← hmr]
    exact List.mem_append_left _ hx
  have hmem_rest : ∀ x ∈ rest, x ∈ chunks0 := by
    intro x hx
    rw [← hmr]
    exact List.mem_append_right _ hx
  cases rest with
  | nil =>
    have hq : maybeLong w moved [] = (moved, []) := rfl
    rcases dropTrailWs_cases moved with hdt | ⟨init, x, happ, hstrip, hdt⟩
    · -- nothing dropped at the end of the line
      by_cases hemp : moved.isEmpty = true
      · have hmv : moved = [] := by simpa [List.isEmpty_iff] using hemp
        have hch : chunks0 = [] := by
          rw [← hmr, hmv]
          rfl
        have hco : wrapCore w chunks0 = (none, []) := by
          simp [wrapCore, htf, hq, hdt, hemp]
        refine ⟨[], rfl, ?_, ?_, ?_, ?_⟩
        · rw [hco, hch]
          rfl
        · intro h
          exact absurd hch h
        · intro l hl
          rw [hco] at hl
          simp at hl
        · intro _ x hx
          rw [hco] at hx
          simp at hx
      · have hco : wrapCore w chunks0 = (some moved.flatten, []) := by
          simp [wrapCore, htf, hq, hdt, hemp]
        refine ⟨[], rfl, ?_, ?_, ?_, ?_⟩
        · rw [hco, ← hmr]
          simp
        · intro h
          rw [hco]
          have h1 := phiChunks_pos h
          have h0 : phiChunks ([] : List Str) = 0 := rfl
          show phiChunks ([] : List Str) < phiChunks chunks0
          omega
        · intro l hl
          rw [hco] at hl
          have hl' : l = moved.flatten := by
            simpa using hl.symm
          subst hl'
          constructor
          · rw [length_flatten_eq]
            omega
          · intro hok
            exact flatten_ne_nil (by simpa [List.isEmpty_iff] using hemp)
              (fun c hc => hok c (hmem_moved c hc))
        · intro _ x hx
          rw [hco] at hx
          simp at hx
    · -- the all-whitespace last piece x is dropped
      by_cases hemp : init.isEmpty = true
      · have hin : init = [] := by simpa [List.isEmpty_iff] using hemp
        have hco : wrapCore w chunks0 = (none, []) := by
          simp [wrapCore, htf, hq, hdt, hemp]
        refine ⟨x, hstrip, ?_, ?_, ?_, ?_⟩
        · rw [hco, ← hmr, happ, hin]
          simp
        · intro h
          rw [hco]
          have h1 := phiChunks_pos h
          have h0 : phiChunks ([] : List Str) = 0 := rfl
          show phiChunks ([] : List Str) < phiChunks chunks0
          omega
        · intro l hl
          rw [hco] at hl
          simp at hl
        · intro _ y hy
          rw [hco] at hy
          simp at hy
      · have hco : wrapCore w chunks0 = (some init.flatten, []) := by
          simp [wrapCore, htf, hq, hdt, hemp]
        refine ⟨x, hstrip, ?_, ?_, ?_, ?_⟩
        · rw [hco, ← hmr, happ]
          simp
        · intro h
          rw [hco]
          have h1 := phiChunks_pos h
          have h0 : phiChunks ([] : List Str) = 0 := rfl
          show phiChunks ([] : List Str) < phiChunks chunks0
          omega
        · intro l hl
          rw [hco] at hl
          have hl' : l = init.flatten := by
            simpa using hl.symm
          subst hl'
          have hsum2 : sumLens init ≤ sumLens moved := by
            rw [happ, sumLens_append]
            omega
          constructor
          · rw [length_flatten_eq]
            omega
          · intro hok
            refine flatten_ne_nil (by simpa [List.isEmpty_iff] using hemp)
              (fun c hc => hok c (hmem_moved c ?_))
            rw [happ]
            exact List.mem_append_left _ hc
        · intro _ y hy
          rw [hco] at hy
          simp at hy
  | cons r rs =>
    by_cases hlong : w < r.length
    · -- long-word handling
      have hq : maybeLong w moved (r :: rs) =
          (moved ++ [r.take (hlwEnd w (sumLens moved) r)],
            r.drop (hlwEnd w (sumLens moved) r) :: rs) := by
        rw [maybeLong, if_pos hlong, handleLongWord]
      have he_lt : hlwEnd w (sumLens moved) r < r.length :=
        hlwEnd_lt w _ r hw hlong
      have he_add : sumLens moved + hlwEnd w (sumLens moved) r ≤ w :=
        hlwEnd_add_le w _ r hw hsum
      have hflat_q :
          (moved ++ [r.take (hlwEnd w (sumLens moved) r)]).flatten ++
            (r.drop (hlwEnd w (sumLens moved) r) :: rs).flatten =
          chunks0.flatten := by
        rw [← hmr]
        exact flatten_split_piece moved r rs _
      have hphi_q :
          phiChunks (r.drop (hlwEnd w (sumLens moved) r) :: rs) <
            phiChunks chunks0 := by
        rw [← hmr, phiChunks_append, phiChunks_cons, phiChunks_cons,
          List.length_drop]
        by_cases hmv : moved = []
        · have hsl : sumLens moved = 0 := by
            rw [hmv]
            rfl
          have hlm : moved.length = 0 := by
            rw [hmv]
            rfl
          rw [hsl]
          have h1 := hlwEnd_one_le w r
          omega
        · have hlm : 1 ≤ moved.length := by
            cases moved with
            | nil => exact absurd rfl hmv
            | cons a as => simp
          omega
      rcases dropTrailWs_cases (moved ++ [r.take (hlwEnd w (sumLens moved) r)])
        with hdt | ⟨init, x, happ, hstrip, hdt⟩
      · -- nothing dropped: the partial piece stays on the line
        have hemp : ((moved ++ [r.take (hlwEnd w (sumLens moved) r)]).isEmpty)
            = false := by
          simp
        have hco : wrapCore w chunks0 =
            (some (moved ++ [r.take (hlwEnd w (sumLens moved) r)]).flatten,
              r.drop (hlwEnd w (sumLens moved) r) :: rs) := by
          simp [wrapCore, htf, hq, hdt, hemp]
        refine ⟨[], rfl, ?_, ?_, ?_, ?_⟩
        · rw [hco, ← hflat_q]
          simp
        · intro _
          rw [hco]
          exact hphi_q
        · intro l hl
          rw [hco] at hl
          have hl' : l = (moved ++ [r.take (hlwEnd w (sumLens moved) r)]).flatten := by
            simpa using hl.symm
          subst hl'
          constructor
          · rw [length_flatten_eq, sumLens_append, sumLens_cons, sumLens_nil,
              List.length_take]
            omega
          · intro hok
            by_cases hmv : moved = []
            · subst hmv
              have h1 : 1 ≤ hlwEnd w (sumLens ([] : List Str)) r :=
                hlwEnd_one_le w r
              have hr : r ≠ [] := by
                intro h
                rw [h] at hlong
                simp at hlong
              simp only [List.nil_append, List.flatten_cons,
                List.flatten_nil, List.append_nil]
              intro h
              have hlen := congrArg List.length h
              rw [List.length_take] at hlen
              simp only [List.length_nil] at hlen
              have hrlen : 1 ≤ r.length := by
                cases r with
                | nil => exact absurd rfl hr
                | cons a as => simp
              omega
            · have : moved.flatten ≠ [] :=
                flatten_ne_nil hmv (fun c hc => hok c (hmem_moved c hc))
              simp only [List.flatten_append, ne_eq, List.append_eq_nil]
              intro h
              exact this h.1
        · intro hok x hx
          rw [hco] at hx
          simp only [List.mem_cons] at hx
          rcases hx with hx | hx
          · subst hx
            intro h
            have := congrArg List.length h
            rw [List.length_drop] at this
            simp at this
            omega
          · exact hok x (hmem_rest x (by simp [hx]))
      · -- the split piece was all whitespace and is dropped from the line
        obtain ⟨hinit, hx⟩ := append_singleton_inj happ
        subst hinit
        by_cases hemp : moved.isEmpty = true
        · have hmv : moved = [] := by simpa [List.isEmpty_iff] using hemp
          have hco : wrapCore w chunks0 =
              (none, r.drop (hlwEnd w (sumLens moved) r) :: rs) := by
            simp [wrapCore, htf, hq, hdt, hemp]
          refine ⟨x, hstrip, ?_, ?_, ?_, ?_⟩
          · rw [hco, ← hflat_q, ← hx, hmv]
            simp
          · intro _
            rw [hco]
            exact hphi_q
          · intro l hl
            rw [hco] at hl
            simp at hl
          · intro hok y hy
            rw [hco] at hy
            simp only [List.mem_cons] at hy
            rcases hy with hy | hy
            · subst hy
              intro h
              have := congrArg List.length h
              rw [List.length_drop] at this
              simp at this
              omega
            · exact hok y (hmem_rest y (by simp [hy]))
        · have hco : wrapCore w chunks0 =
              (some moved.flatten,
                r.drop (hlwEnd w (sumLens moved) r) :: rs) := by
            simp [wrapCore, htf, hq, hdt, hemp]
          refine ⟨x, hstrip, ?_, ?_, ?_, ?_⟩
          · rw [hco, ← hflat_q, ← hx]
            simp
          · intro _
            rw [hco]
            exact hphi_q
          · intro l hl
            rw [hco] at hl
            have hl' : l = moved.flatten := by
              simpa using hl.symm
            subst hl'
            constructor
            · rw [length_flatten_eq]
              omega
            · intro hok
              exact flatten_ne_nil (by simpa [List.isEmpty_iff] using hemp)
                (fun c hc => hok c (hmem_moved c hc))
          · intro hok y hy
            rw [hco] at hy
            simp only [List.mem_cons] at hy
            rcases hy with hy | hy
            · subst hy
              intro h
              have := congrArg List.length h
              rw [List.length_drop] at this
              simp at this
              omega
            · exact hok y (hmem_rest y (by simp [hy]))
    · -- the next chunk is not longer than the width: line is simply full
      have hq : maybeLong w moved (r :: rs) = (moved, r :: rs) := by
        rw [maybeLong, if_neg hlong]
      have hmv : moved ≠ [] := by
        intro hmv
        have hh : (takeFits w 0 (r :: rs)).1 = [] := by
          have : chunks0 = r :: rs := by
            rw [← hmr, hmv]
            rfl
          rw [← this, htf, hmv]
        have := takeFits_empty_head w 0 r rs hh
        omega
      have hphi_q : phiChunks (r :: rs) < phiChunks chunks0 := by
        rw [← hmr, phiChunks_append]
        have hlm : 1 ≤ moved.length := by
          cases moved with
          | nil => exact absurd rfl hmv
          | cons a as => simp
        omega
      rcases dropTrailWs_cases moved with hdt | ⟨init, x, happ, hstrip, hdt⟩
      · have hemp : moved.isEmpty = false := by
          simpa [List.isEmpty_iff] using hmv
        have hco : wrapCore w chunks0 = (some moved.flatten, r :: rs) := by
          simp [wrapCore, htf, hq, hdt, hemp]
        refine ⟨[], rfl, ?_, ?_, ?_, ?_⟩
        · rw [hco, ← hmr]
          simp
        · intro _
          rw [hco]
          exact hphi_q
        · intro l hl
          rw [hco] at hl
          have hl' : l = moved.flatten := by
            simpa using hl.symm
          subst hl'
          constructor
          · rw [length_flatten_eq]
            omega
          · intro hok
            exact flatten_ne_nil hmv (fun c hc => hok c (hmem_moved c hc))
        · intro hok x hx
          rw [hco] at hx
          exact hok x (hmem_rest x hx)
      · by_cases hemp : init.isEmpty = true
        · have hin : init = [] := by simpa [List.isEmpty_iff] using hemp
          have hco : wrapCore w chunks0 = (none, r :: rs) := by
            simp [wrapCore, htf, hq, hdt, hemp]
          refine ⟨x, hstrip, ?_, ?_, ?_, ?_⟩
          · rw [hco, ← hmr, happ, hin]
            simp
          · intro _
            rw [hco]
            exact hphi_q
          · intro l hl
            rw [hco] at hl
            simp at hl
          · intro hok y hy
            rw [hco] at hy
            exact hok y (hmem_rest y hy)
        · have hco : wrapCore w chunks0 = (some init.flatten, r :: rs) := by
            simp [wrapCore, htf, hq, hdt, hemp]
          refine ⟨x, hstrip, ?_, ?_, ?_, ?_⟩
          · rw [hco, ← hmr, happ]
            simp
          · intro _
            rw [hco]
            exact hphi_q
          · intro l hl
            rw [hco] at hl
            have hl' : l = init.flatten := by
              simpa using hl.symm
            subst hl'
            have hsum2 : sumLens init ≤ sumLens moved := by
              rw [happ, sumLens_append]
              omega
            constructor
            · rw [length_flatten_eq]
              omega
            · intro hok
              refine flatten_ne_nil (by simpa [List.isEmpty_iff] using hemp)
                (fun c hc => hok c (hmem_moved c ?_))
              rw [happ]
              exact List.mem_append_left _ hc
          · intro hok y hy
            rw [hco] at hy
            exact hok y (hmem_rest y hy)

/-- `wrapCore_spec`, lifted over the leading-whitespace drop to a whole
loop iteration. -/
theorem wrapStep_master (w : Nat) (first : Bool) (chunks : List Str)
    (hw : 1 ≤ w) :
    ∃ d1 d2, StripEmpty d1 = true ∧ StripEmpty d2 = true ∧
      chunks.flatten =
        d1 ++ ((wrapStep w first chunks).1.getD []) ++ d2 ++
          (wrapStep w first chunks).2.2.flatten ∧
      (chunks ≠ [] →
        phiChunks (wrapStep w first chunks).2.2 < phiChunks chunks) ∧
      (∀ l, (wrapStep w first chunks).1 = some l →
        l.length ≤ w ∧ ((∀ c ∈ chunks, c ≠ []) → l ≠ [])) ∧
      ((∀ c ∈ chunks, c ≠ []) →
        ∀ x ∈ (wrapStep w first chunks).2.2, x ≠ []) := by
  obtain ⟨d2, hd2, hflat, hphi, hline, hok⟩ :=
    wrapCore_spec w (dropLeadWs first chunks) hw
  have hfst : (wrapStep w first chunks).1 =
      (wrapCore w (dropLeadWs first chunks)).1 := rfl
  have hrst : (wrapStep w first chunks).2.2 =
      (wrapCore w (dropLeadWs first chunks)).2 := rfl
  rw [hfst, hrst]
  rcases dropLeadWs_cases first chunks with h0 | ⟨c0, cs0, hch, hc0, h0⟩
  · rw [h0] at hflat hphi hline hok ⊢
    exact ⟨[], d2, rfl, hd2, by simpa using hflat, hphi, hline, hok⟩
  · rw [h0] at hflat hphi hline hok ⊢
    refine ⟨c0, d2, hc0, hd2, ?_, ?_, ?_, ?_⟩
    · conv_lhs => rw [hch]
      simp only [List.flatten_cons]
      rw [hflat]
      simp [List.append_assoc]
    · intro _
      by_cases hcs : cs0 = []
      · subst hcs
        have hcore : wrapCore w ([] : List Str) = (none, []) := rfl
        rw [hcore, hch, phiChunks_cons]
        show phiChunks ([] : List Str) < _
        have hz : phiChunks ([] : List Str) = 0 := rfl
        omega
      · have h1 := hphi hcs
        rw [hch, phiChunks_cons]
        omega
    · intro l hl
      obtain ⟨hlen, hne⟩ := hline l hl
      refine ⟨hlen, fun hokc => hne ?_⟩
      intro c hc
      exact hokc c (by rw [hch]; exact List.mem_cons_of_mem _ hc)
    · intro hokc x hx
      refine hok ?_ x hx
      intro c hc
      exact hokc c (by rw [hch]; exact List.mem_cons_of_mem _ hc)

theorem wrapRun_cons_none {w fuel : Nat} {first : Bool} {c : Str}
    {cs : List Str} (h : (wrapStep w first (c :: cs)).1 = none) :
    wrapRun w (fuel + 1) first (c :: cs) =
      wrapRun w fuel (wrapStep w first (c :: cs)).2.1
        (wrapStep w first (c :: cs)).2.2 := by
  rcases hstep : wrapStep w first (c :: cs) with ⟨lnopt, first2, rest⟩
  rw [hstep] at h
  simp only at h
  subst h
  rw [wrapRun, hstep]

theorem wrapRun_cons_some {w fuel : Nat} {first : Bool} {c l : Str}
    {cs : List Str} (h : (wrapStep w first (c :: cs)).1 = some l) :
    wrapRun w (fuel + 1) first (c :: cs) =
      l :: wrapRun w fuel (wrapStep w first (c :: cs)).2.1
        (wrapStep w first (c :: cs)).2.2 := by
  rcases hstep : wrapStep w first (c :: cs) with ⟨lnopt, first2, rest⟩
  rw [hstep] at h
  simp only at h
  subst h
  rw [wrapRun, hstep]

/-- Every line produced by the wrap loop is at most `w` long, nonempty,
and made of characters of the pending text. -/
theorem wrapRun_facts (w : Nat) (hw : 1 ≤ w) :
    ∀ (fuel : Nat) (first : Bool) (chunks : List Str),
      (∀ c ∈ chunks, c ≠ []) →
      ∀ l ∈ wrapRun w fuel first chunks,
        l.length ≤ w ∧ l ≠ [] ∧ ∀ ch ∈ l, ch ∈ chunks.flatten := by
  intro fuel
  induction fuel with
  | zero =>
    intro first chunks hok l hl
    simp [wrapRun] at hl
  | succ fuel ih =>
    intro first chunks hok l hl
    cases chunks with
    | nil => simp [wrapRun] at hl
    | cons c cs =>
      obtain ⟨d1, d2, hd1, hd2, hflat, hphi, hline, hrest⟩ :=
        wrapStep_master w first (c :: cs) hw
      have hok2 : ∀ x ∈ (wrapStep w first (c :: cs)).2.2, x ≠ [] :=
        hrest hok
      have hmemr : ∀ ch, ch ∈ (wrapStep w first (c :: cs)).2.2.flatten →
          ch ∈ (c :: cs).flatten := by
        intro ch hch
        rw [hflat]
        simp only [List.mem_append]
        right
        exact hch
      cases hln : (wrapStep w first (c :: cs)).1 with
      | none =>
        rw [wrapRun_cons_none hln] at hl
        obtain ⟨ha, hb, hc⟩ := ih _ _ hok2 l hl
        exact ⟨ha, hb, fun ch hch => hmemr ch (hc ch hch)⟩
      | some line =>
        rw [wrapRun_cons_some hln] at hl
        rcases List.mem_cons.mp hl with hl | hl
        · subst hl
          obtain ⟨hlen, hne⟩ := hline l hln
          refine ⟨hlen, hne hok, ?_⟩
          intro ch hch
          rw [hflat, hln]
          simp only [Option.getD_some, List.mem_append]
          left; left; right
          exact hch
        · obtain ⟨ha, hb, hc⟩ := ih _ _ hok2 l hl
          exact ⟨ha, hb, fun ch hch => hmemr ch (hc ch hch)⟩

/-- The wrap loop consumes the whole chunk text: with enough fuel the
emitted lines, interleaved with the dropped whitespace, reproduce it. -/
theorem wrapRun_spacedJoin (w : Nat) (hw : 1 ≤ w) :
    ∀ (fuel : Nat) (first : Bool) (chunks : List Str),
      phiChunks chunks < fuel →
      IsSpacedJoin (wrapRun w fuel first chunks) chunks.flatten := by
  intro fuel
  induction fuel with
  | zero =>
    intro first chunks h
    omega
  | succ fuel ih =>
    intro first chunks h
    cases chunks with
    | nil =>
      show IsSpacedJoin [] []
      rfl
    | cons c cs =>
      obtain ⟨d1, d2, hd1, hd2, hflat, hphi, hline, hrest⟩ :=
        wrapStep_master w first (c :: cs) hw
      have hphi2 : phiChunks (wrapStep w first (c :: cs)).2.2 < fuel := by
        have := hphi (by simp)
        omega
      have hrec := ih (wrapStep w first (c :: cs)).2.1
        (wrapStep w first (c :: cs)).2.2 hphi2
      cases hln : (wrapStep w first (c :: cs)).1 with
      | none =>
        rw [wrapRun_cons_none hln]
        rw [hln] at hflat
        simp only [Option.getD_none, List.append_nil, List.nil_append]
          at hflat
        rw [hflat, List.append_assoc]
        exact IsSpacedJoin_prepend hd1
          (IsSpacedJoin_prepend hd2 hrec)
      | some line =>
        rw [wrapRun_cons_some hln]
        rw [hln] at hflat
        simp only [Option.getD_some] at hflat
        exact ⟨d1, d2 ++ (wrapStep w first (c :: cs)).2.2.flatten, hd1,
          IsSpacedJoin_prepend hd2 hrec, by
            rw [hflat]
            simp [List.append_assoc]⟩

theorem StripEmpty_of_all_space {s : Str}
    (hs : s.all (fun c => c = ' ') = true) : StripEmpty s = true := by
  rw [StripEmpty, List.all_eq_true]
  rw [List.all_eq_true] at hs
  intro x hx
  have := hs x hx
  rw [decide_eq_true_eq] at this
  rw [this]
  decide

theorem all_space_take {s : Str} (n : Nat)
    (hs : s.all (fun c => c = ' ') = true) :
    (s.take n).all (fun c => c = ' ') = true := by
  rw [List.all_eq_true] at hs ⊢
  intro x hx
  exact hs x (List.mem_of_mem_take hx)

theorem all_space_drop {s : Str} (n : Nat)
    (hs : s.all (fun c => c = ' ') = true) :
    (s.drop n).all (fun c => c = ' ') = true := by
  rw [List.all_eq_true] at hs ⊢
  intro x hx
  exact hs x (List.mem_of_mem_drop hx)

/-- A step on a single all-space chunk emits no line and leaves at most
one all-space chunk. -/
theorem wrapStep_single_space (w : Nat) (first : Bool) (s : Str)
    (hs : s.all (fun c => c = ' ') = true) :
    (wrapStep w first [s]).1 = none ∧
      ((wrapStep w first [s]).2.2 = [] ∨
        ∃ t, (wrapStep w first [s]).2.2 = [t] ∧
          t.all (fun c => c = ' ') = true) := by
  have hstrip : StripEmpty s = true := StripEmpty_of_all_space hs
  have hfst : (wrapStep w first [s]).1 = (wrapCore w (dropLeadWs first [s])).1 :=
    rfl
  have hrst : (wrapStep w first [s]).2.2 =
      (wrapCore w (dropLeadWs first [s])).2 := rfl
  rw [hfst, hrst]
  rcases dropLeadWs_cases first [s] with h0 | ⟨c0, cs0, hch, hc0, h0⟩
  case inr =>
    have hcs : cs0 = [] := by
      injection hch with h1 h2
      exact h2.symm
    rw [h0, hcs]
    exact ⟨rfl, Or.inl rfl⟩
  case inl =>
    rw [h0]
    by_cases hfit : 0 + s.length ≤ w
    · have htf : takeFits w 0 [s] = ([s], []) := by
        rw [takeFits, if_pos hfit]
        rfl
      have hq : maybeLong w [s] [] = ([s], []) := rfl
      have hdt : dropTrailWs [s] = [] := by
        rw [dropTrailWs, if_pos hstrip]
      constructor
      · show (wrapCore w [s]).1 = none
        simp [wrapCore, htf, hq, hdt]
      · left
        show (wrapCore w [s]).2 = []
        simp [wrapCore, htf, hq]
    · have htf : takeFits w 0 [s] = ([], [s]) := by
        rw [takeFits, if_neg hfit]
      have hlong : w < s.length := by omega
      have hq : maybeLong w [] [s] =
          ([s.take (hlwEnd w (sumLens []) s)],
            [s.drop (hlwEnd w (sumLens []) s)]) := by
        rw [maybeLong, if_pos hlong, handleLongWord]
        simp
      have hdt : dropTrailWs [s.take (hlwEnd w (sumLens []) s)] = [] := by
        rw [dropTrailWs,
          if_pos (StripEmpty_of_all_space (all_space_take _ hs))]
      constructor
      · show (wrapCore w [s]).1 = none
        simp [wrapCore, htf, hq, hdt]
      · right
        refine ⟨s.drop (hlwEnd w (sumLens []) s), ?_, all_space_drop _ hs⟩
        show (wrapCore w [s]).2 = _
        simp [wrapCore, htf, hq]

/-- The wrap loop emits nothing when the chunk list is a single
all-space chunk (or empty). -/
theorem wrapRun_all_space (w : Nat) :
    ∀ (fuel : Nat) (first : Bool) (chunks : List Str),
      (chunks = [] ∨
        ∃ s, chunks = [s] ∧ s.all (fun c => c = ' ') = true) →
      wrapRun w fuel first chunks = [] := by
  intro fuel
  induction fuel with
  | zero =>
    intro first chunks _
    rw [wrapRun]
  | succ fuel ih =>
    intro first chunks h
    rcases h with h | ⟨s, hch, hs⟩
    · subst h
      rw [wrapRun]
    · subst hch
      obtain ⟨h1, h2⟩ := wrapStep_single_space w first s hs
      rw [wrapRun_cons_none h1]
      exact ih _ _ h2

theorem chunk_text_some {text : Str} {W : Nat} {cs : List Str}
    (h : chunk_text text W = some cs) :
    1 ≤ W ∧
      cs = wrapRun W (phiChunks (splitChunks text) + 1) true
        (splitChunks text) := by
  by_cases hW : W = 0
  · subst hW
    rw [chunk_text, pyWrap, if_pos rfl] at h
    cases h
  · rw [chunk_text, pyWrap, if_neg hW] at h
    exact ⟨by omega, (Option.some.inj h).symm⟩

/-! ## Claim C1 -/

/-- C1, amended: for every input text and positive maximum width `W`,
every chunk returned by `chunk_text(text, W)` has length at most `W`
(words longer than the remaining width are broken across chunks by
`break_long_words`, so no chunk ever exceeds `W`; as the counterexample
shows, a hyphenated word may also be split after a hyphen even when it is
shorter than `W`, so breaks are not only at whitespace). -/
theorem C1_chunk_length_le_width (text : Str) (W : Nat) (cs : List Str)
    (h : chunk_text text W = some cs) : ∀ c ∈ cs, c.length ≤ W := by
  obtain ⟨hW, hcs⟩ := chunk_text_some h
  subst hcs
  intro c hc
  exact (wrapRun_facts W hW _ _ _ (fun x hx => pySplit_ne_nil x hx) c hc).1

/-- Witness for C1 at a concrete input. -/
theorem C1_witness :
    chunk_text ("aa bb").toList 3 = some [("aa").toList, ("bb").toList] ∧
      List.length ("aa").toList ≤ 3 :=
  ⟨by decide,
   C1_chunk_length_le_width ("aa bb").toList 3
     [("aa").toList, ("bb").toList] (by decide)
     ("aa").toList (by decide)⟩

/-- C1 as stated is false: on `"aa foo-bar"` with width 8 the word
`"foo-bar"` (a whitespace-delimited word of length 7 ≤ 8) is split
across the two chunks `"aa foo-"` and `"bar"` — the chunker also breaks
after hyphens inside hyphenated words, not only at whitespace. -/
theorem C1_counterexample :
    chunk_text ("aa foo-bar").toList 8 =
        some [("aa foo-").toList, ("bar").toList] ∧
      ("foo-bar").toList.length ≤ 8 ∧
      ("foo-bar").toList ∈ wordsOf (("aa foo-bar").toList) ∧
      ∀ c ∈ [("aa foo-").toList, ("bar").toList],
        containsSub (("foo-bar").toList) c = false := by
  refine ⟨by decide, by decide, by decide, by decide⟩

/-! ## Claim C2 -/

/-- C2, amended: concatenating the chunks of `chunk_text(text, W)` in
order, reinserting the whitespace the wrap algorithm dropped at chunk
boundaries, reconstructs the whitespace-normalized text (tabs expanded,
every whitespace character replaced by a space — `munge text`), not the
original input: the chunks cover the normalized text in order with
nothing lost or reordered. -/
theorem C2_chunks_cover_normalized_text (text : Str) (W : Nat)
    (cs : List Str) (h : chunk_text text W = some cs) :
    IsSpacedJoin cs (munge text) := by
  obtain ⟨hW, hcs⟩ := chunk_text_some h
  subst hcs
  have hsj := wrapRun_spacedJoin W hW (phiChunks (splitChunks text) + 1)
    true (splitChunks text) (by omega)
  rw [splitChunks_flatten] at hsj
  exact hsj

/-- Witness for C2 at a concrete input. -/
theorem C2_witness :
    IsSpacedJoin [("a b").toList] (munge ("a\nb").toList) :=
  C2_chunks_cover_normalized_text ("a\nb").toList 10 _ (by decide)

/-- C2 as stated is false: for the input `"a\nb"` with width 10 the only
chunk is `"a b"`, which does not occur in the original text at all, so no
reinsertion of boundary whitespace can reconstruct the original input
(the newline was rewritten to a space inside the chunk). -/
theorem C2_counterexample :
    chunk_text ("a\nb").toList 10 = some [("a b").toList] ∧
      containsSub (("a b").toList) (("a\nb").toList) = false := by
  refine ⟨by decide, by decide⟩

/-! ## Claim C10 -/

/-- C10, amended: for every input text and positive maximum width, every
chunk returned by `chunk_text` is nonempty and contains no newline (the
wrap algorithm replaces each whitespace character, including newlines,
with a space, and emits no empty chunks — whitespace runs inside a chunk
are preserved, as the counterexample shows); for whitespace-only input
the chunk sequence is empty. -/
theorem C10_chunks_nonempty_no_newline (text : Str) (W : Nat)
    (cs : List Str) (h : chunk_text text W = some cs) :
    (∀ c ∈ cs, c ≠ [] ∧ '\n' ∉ c) ∧
      (text.all ws6 = true → cs = []) := by
  obtain ⟨hW, hcs⟩ := chunk_text_some h
  subst hcs
  constructor
  · intro c hc
    obtain ⟨_, hne, hchars⟩ :=
      wrapRun_facts W hW _ _ _ (fun x hx => pySplit_ne_nil x hx) c hc
    refine ⟨hne, fun hmem => ?_⟩
    have hm := hchars '\n' hmem
    rw [pySplit_flatten] at hm
    exact munge_no_newline text hm
  · intro hws
    apply wrapRun_all_space
    have hsp := munge_all_space hws
    rcases pySplit_all_space hsp with h1 | ⟨_, h1⟩
    · left
      exact h1
    · right
      exact ⟨munge text, h1, hsp⟩

/-- Witness for C10 at a concrete input. -/
theorem C10_witness :
    (∀ c ∈ ([] : List Str), c ≠ [] ∧ '\n' ∉ c) ∧
      (("  ").toList.all ws6 = true → ([] : List Str) = []) :=
  C10_chunks_nonempty_no_newline ("  ").toList 5 [] (by decide)

/-- The parenthetical of C10 as stated ("replaces each run of whitespace
… with a single space") is false: on `"a  b"` with width 70 the chunk is
`"a  b"` — the two-space run survives inside the chunk (each whitespace
character is replaced by a space; runs are not collapsed). -/
theorem C10_counterexample :
    chunk_text ("a  b").toList 70 = some [("a  b").toList] ∧
      containsSub (("  ").toList) (("a  b").toList) = true ∧
      ("a  b").toList ≠ ("a b").toList := by
  refine ⟨by decide, by decide, by decide⟩

/-! ## Lemmas: the subtitle-markup extractor (`re.sub` scanners) -/

theorem takeWhile_append_head_neg {p : Char → Bool} :
    ∀ (u r : Str), (∀ c, r.head? = some c → p c = false) →
      (u ++ r).takeWhile p = u.takeWhile p ∧
      (u ++ r).dropWhile p = u.dropWhile p ++ r := by
  intro u
  induction u with
  | nil =>
    intro r h
    cases r with
    | nil => exact ⟨rfl, rfl⟩
    | cons c r' =>
      have hc := h c rfl
      constructor
      · simp [List.takeWhile_cons, hc]
      · simp [List.dropWhile_cons, hc]
  | cons c u' ih =>
    intro r h
    by_cases hc : p c = true
    · obtain ⟨h1, h2⟩ := ih r h
      constructor
      · simp [List.takeWhile_cons, hc, h1]
      · simp [List.dropWhile_cons, hc, h2]
    · rw [Bool.not_eq_true] at hc
      constructor
      · simp [List.takeWhile_cons, hc]
      · simp [List.dropWhile_cons, hc]

theorem dropWhile_all_nil {p : Char → Bool} :
    ∀ {u : Str}, u.all p = true → u.dropWhile p = [] := by
  intro u h
  induction u with
  | nil => rfl
  | cons c u' ih =>
    simp only [List.all_cons, Bool.and_eq_true] at h
    simp [List.dropWhile_cons, h.1, ih h.2]

theorem dropWhile_head_neg {p : Char → Bool} :
    ∀ {u : Str} {d : Char} {du : Str}, u.dropWhile p = d :: du →
      p d = false := by
  intro u
  induction u with
  | nil => intro d du h; cases h
  | cons c u' ih =>
    intro d du h
    by_cases hc : p c = true
    · rw [List.dropWhile_cons, if_pos hc] at h
      exact ih h
    · rw [List.dropWhile_cons, if_neg hc] at h
      cases h
      simpa using hc

theorem mem_of_mem_dropWhile {p : Char → Bool} :
    ∀ {u : Str} {x : Char}, x ∈ u.dropWhile p → x ∈ u := by
  intro u
  induction u with
  | nil => intro x h; exact absurd h (by simp)
  | cons c u' ih =>
    intro x h
    by_cases hc : p c = true
    · rw [List.dropWhile_cons, if_pos hc] at h
      exact List.mem_cons_of_mem _ (ih h)
    · rw [List.dropWhile_cons, if_neg hc] at h
      exact h

theorem matchPat_append {ps : List (Char → Bool)} :
    ∀ {l r : Str}, matchPat ps l = some [] →
      matchPat ps (l ++ r) = some r := by
  induction ps with
  | nil =>
    intro l r h
    rw [matchPat] at h
    injection h with h'
    subst h'
    rfl
  | cons p ps ih =>
    intro l r h
    cases l with
    | nil => rw [matchPat] at h; cases h
    | cons c l' =>
      rw [matchPat] at h
      rw [List.cons_append, matchPat]
      by_cases hc : p c = true
      · rw [if_pos hc] at h ⊢
        exact ih h
      · rw [if_neg hc] at h
        cases h

theorem matchPat_decomp {ps : List (Char → Bool)} :
    ∀ {l rem : Str}, matchPat ps l = some rem → ∃ pre, l = pre ++ rem := by
  induction ps with
  | nil =>
    intro l rem h
    rw [matchPat] at h
    injection h with h'
    exact ⟨[], h'.symm ▸ rfl⟩
  | cons p ps ih =>
    intro l rem h
    cases l with
    | nil => rw [matchPat] at h; cases h
    | cons c l' =>
      rw [matchPat] at h
      by_cases hc : p c = true
      · rw [if_pos hc] at h
        obtain ⟨pre, hpre⟩ := ih h
        exact ⟨c :: pre, by rw [hpre]; rfl⟩
      · rw [if_neg hc] at h
        cases h

theorem matchPat_cons_neg {p : Char → Bool} {ps : List (Char → Bool)}
    {c : Char} (h : p c = false) (l : Str) :
    matchPat (p :: ps) (c :: l) = none := by
  rw [matchPat, if_neg]
  simp [h]

theorem tsPattern_head :
    tsPattern = Char.isDigit :: tsPattern.tail := rfl

/-! ### `natDigits` -/

theorem digitChar_isDigit {m : Nat} (h : m < 10) :
    (Char.ofNat (48 + m)).isDigit = true := by
  interval_cases m <;> decide

theorem natDigitsGo_facts :
    ∀ (f n : Nat) (acc : Str), n < f →
      ∃ d, natDigitsGo f n acc = d ++ acc ∧ d ≠ [] ∧
        d.all Char.isDigit = true := by
  intro f
  induction f with
  | zero => intro n acc h; omega
  | succ f ih =>
    intro n acc h
    rw [natDigitsGo]
    by_cases hn : n < 10
    · rw [if_pos hn]
      exact ⟨[Char.ofNat (48 + n)], rfl, by simp, by
        simp [List.all_cons, digitChar_isDigit hn]⟩
    · rw [if_neg hn]
      have hdiv : n / 10 < n := Nat.div_lt_self (by omega) (by omega)
      obtain ⟨d, hd, hdne, hdall⟩ :=
        ih (n / 10) (Char.ofNat (48 + n % 10) :: acc) (by omega)
      refine ⟨d ++ [Char.ofNat (48 + n % 10)], by rw [hd]; simp, by simp, ?_⟩
      rw [List.all_append, hdall]
      simp [digitChar_isDigit (Nat.mod_lt n (by omega))]

theorem natDigits_facts (n : Nat) :
    natDigits n ≠ [] ∧ (natDigits n).all Char.isDigit = true := by
  obtain ⟨d, hd, hdne, hdall⟩ := natDigitsGo_facts (n + 1) n [] (by omega)
  have hd' : natDigits n = d := by
    rw [natDigits, hd, List.append_nil]
  rw [hd']
  exact ⟨hdne, hdall⟩

/-! ### The first substitution -/

theorem matchAt_nil : matchAt [] = none := rfl

theorem matchAt_block (i : Nat) (ts rest : Str)
    (hts : isTsLine ts = true) :
    matchAt (natDigits i ++ '\n' :: (ts ++ '\n' :: rest)) = some rest := by
  obtain ⟨hne, hall⟩ := natDigits_facts i
  have hhead : ∀ c : Char, ('\n' :: (ts ++ '\n' :: rest)).head? = some c →
      c.isDigit = false := by
    intro c hc
    injection hc with hc
    rw [← hc]
    decide
  obtain ⟨htw, hdw⟩ := takeWhile_append_head_neg (natDigits i)
    ('\n' :: (ts ++ '\n' :: rest)) hhead
  rw [matchAt, htw, takeWhile_all_eq hall, hdw, dropWhile_all_nil hall]
  simp only [List.isEmpty_iff, List.nil_append]
  rw [if_neg hne]
  have hmp : matchPat tsPattern (ts ++ '\n' :: rest) =
      some ('\n' :: rest) := by
    apply matchPat_append
    rw [isTsLine] at hts
    simpa using hts
  rw [hmp]
  rfl

theorem matchAt_inside_text {u : Str} (hu : '\n' ∉ u) (r0 : Str) :
    matchAt (u ++ '\n' :: '\n' :: r0) = none := by
  rcases hdu : u.dropWhile Char.isDigit with _ | ⟨d, du'⟩
  · -- u is all digits (possibly empty)
    have hall : u.all Char.isDigit = true := by
      rw [List.all_eq_true]
      intro x hx
      by_contra hxd
      have : u.dropWhile Char.isDigit ≠ [] := by
        intro hnil
        have := List.takeWhile_append_dropWhile Char.isDigit u
        rw [hnil, List.append_nil] at this
        rw [← this] at hx
        have := List.mem_takeWhile_imp hx
        exact hxd this
      exact this hdu
    have hhead : ∀ c : Char, (('\n' : Char) :: '\n' :: r0).head? = some c →
        c.isDigit = false := by
      intro c hc
      injection hc with hc
      rw [← hc]
      decide
    obtain ⟨htw, hdw⟩ :=
      takeWhile_append_head_neg u ('\n' :: '\n' :: r0) hhead
    rw [matchAt, htw, takeWhile_all_eq hall, hdw, dropWhile_all_nil hall]
    by_cases hne : u.isEmpty = true
    · rw [if_pos hne]
    · rw [if_neg hne]
      simp only [List.nil_append]
      rw [tsPattern_head,
        matchPat_cons_neg (by decide : Char.isDigit '\n' = false)]
  · -- the digit run inside u stops at a non-digit, non-newline character
    have hd : d.isDigit = false := dropWhile_head_neg hdu
    have hdmem : d ∈ u := mem_of_mem_dropWhile (by rw [hdu]; simp)
    have hdnl : d ≠ '\n' := fun h => hu (h ▸ hdmem)
    have hhead : ∀ c : Char, (('\n' : Char) :: '\n' :: r0).head? = some c →
        c.isDigit = false := by
      intro c hc
      injection hc with hc
      rw [← hc]
      decide
    obtain ⟨htw, hdw⟩ :=
      takeWhile_append_head_neg u ('\n' :: '\n' :: r0) hhead
    rw [matchAt, htw, hdw, hdu]
    by_cases hne : (u.takeWhile Char.isDigit).isEmpty = true
    · rw [if_pos hne]
    · rw [if_neg hne]
      simp only [List.cons_append]
      split
      · rename_i r1 heq
        exact absurd (by injection heq) hdnl
      · rfl

theorem sub1Auto_cons_none {c : Char} {rest : Str}
    (h : matchAt (c :: rest) = none) :
    sub1Auto (c :: rest) 0 = c :: sub1Auto rest 0 := by
  rw [sub1Auto, h]

theorem sub1Auto_cons_some {c : Char} {rest r : Str}
    (h : matchAt (c :: rest) = some r) :
    sub1Auto (c :: rest) 0 = sub1Auto rest (rest.length - r.length) := by
  rw [sub1Auto, h]

theorem sub1Auto_skip : ∀ (x r : Str), sub1Auto (x ++ r) x.length =
    sub1Auto r 0 := by
  intro x
  induction x with
  | nil => intro r; rfl
  | cons c x' ih =>
    intro r
    have : sub1Auto (c :: (x' ++ r)) (x'.length + 1) =
        sub1Auto (x' ++ r) x'.length := by
      rw [sub1Auto]
    simpa [this] using ih r

theorem matchAt_decomp {l r : Str} (h : matchAt l = some r) :
    ∃ m, l = m ++ r ∧ 1 ≤ m.length := by
  rw [matchAt] at h
  split at h
  · cases h
  · split at h
    case _ r1 hdw =>
      split at h
      case _ r3 hmp =>
        injection h with h
        subst h
        obtain ⟨pre, hpre⟩ := matchPat_decomp hmp
        refine ⟨l.takeWhile Char.isDigit ++ '\n' :: (pre ++ ['\n']), ?_, ?_⟩
        · conv_lhs => rw [← List.takeWhile_append_dropWhile Char.isDigit l]
          rw [hdw, hpre]
          simp
        · simp
          omega
      all_goals cases h
    all_goals cases h

theorem sub1Auto_match {l r : Str} (h : matchAt l = some r) :
    sub1Auto l 0 = sub1Auto r 0 := by
  obtain ⟨m, hm, hm1⟩ := matchAt_decomp h
  cases l with
  | nil => rw [matchAt_nil] at h; cases h
  | cons c rest =>
    rw [sub1Auto_cons_some h]
    cases m with
    | nil => simp at hm1
    | cons c' m' =>
      have hc : c = c' ∧ rest = m' ++ r := by
        rw [List.cons_append] at hm
        exact ⟨by injection hm, by injection hm⟩
      rw [hc.2]
      have hlen : (m' ++ r).length - r.length = m'.length := by
        rw [List.length_append]
        omega
      rw [hlen]
      exact sub1Auto_skip m' r

theorem sub1Auto_copy :
    ∀ (u : Str), '\n' ∉ u → ∀ r0,
      sub1Auto (u ++ '\n' :: '\n' :: r0) 0 =
        u ++ '\n' :: '\n' :: sub1Auto r0 0 := by
  intro u
  induction u with
  | nil =>
    intro _ r0
    have h1 : matchAt ('\n' :: '\n' :: r0) = none :=
      matchAt_inside_text (u := []) (by simp) r0
    have h2 : matchAt ('\n' :: r0) = none := by
      rw [matchAt]
      rw [if_pos]
      rfl
    rw [List.nil_append, sub1Auto_cons_none h1, sub1Auto_cons_none h2]
    rfl
  | cons c u' ih =>
    intro hu r0
    have hnl : '\n' ∉ u' := fun h => hu (List.mem_cons_of_mem _ h)
    have h1 : matchAt (c :: (u' ++ '\n' :: '\n' :: r0)) = none :=
      matchAt_inside_text (u := c :: u') hu r0
    show sub1Auto (c :: (u' ++ '\n' :: '\n' :: r0)) 0 = _
    rw [sub1Auto_cons_none h1, ih hnl r0]
    rfl

theorem composeBlocks_cons (b : SrtBlock) (bs : List SrtBlock) :
    composeBlocks (b :: bs) =
      natDigits b.index ++ '\n' ::
        (b.ts ++ '\n' :: (b.text ++ '\n' :: '\n' :: composeBlocks bs)) := by
  rw [composeBlocks, List.map_cons, List.flatten_cons]
  simp [composeBlocks, List.append_assoc]

theorem sub1_compose :
    ∀ (bs : List SrtBlock),
      (∀ b ∈ bs, isTsLine b.ts = true ∧ '\n' ∉ b.text) →
      sub1Auto (composeBlocks bs) 0 =
        (bs.map (fun b => b.text ++ ['\n', '\n'])).flatten := by
  intro bs
  induction bs with
  | nil => intro _; rfl
  | cons b bs ih =>
    intro h
    obtain ⟨hts, htext⟩ := h b (by simp)
    rw [composeBlocks_cons]
    have hm := matchAt_block b.index b.ts
      (b.text ++ '\n' :: '\n' :: composeBlocks bs) hts
    rw [sub1Auto_match hm, sub1Auto_copy b.text htext,
      ih (fun x hx => h x (List.mem_cons_of_mem _ hx))]
    simp [List.append_assoc]

/-! ### The second substitution -/

theorem sub2_cons_copy {c : Char} {rest : Str}
    (h : c ≠ '\n' ∨ rest.head? ≠ some '\n') :
    sub2 (c :: rest) = c :: sub2 rest := by
  cases rest with
  | nil => rfl
  | cons d rest' =>
    rw [sub2]
    rw [if_neg]
    intro hcd
    simp only [Bool.and_eq_true, decide_eq_true_eq] at hcd
    rcases h with h | h
    · exact h hcd.1
    · exact h (by rw [hcd.2]; rfl)

theorem sub2_cons_collapse {rest : Str} (h : rest.head? = some '\n') :
    sub2 ('\n' :: rest) = sub2 rest := by
  cases rest with
  | nil => cases h
  | cons d rest' =>
    injection h with h
    subst h
    rw [sub2, if_pos]
    simp

theorem sub2_block :
    ∀ (t : Str), '\n' ∉ t → t ≠ [] →
      ∀ r : Str, (r = [] ∨ r.head? ≠ some '\n') →
      sub2 (t ++ '\n' :: '\n' :: r) = t ++ '\n' :: sub2 r := by
  intro t
  induction t with
  | nil => intro _ h; exact absurd rfl h
  | cons c t' ih =>
    intro hnl _ r hr
    have hcnl : c ≠ '\n' := fun h => hnl (by rw [h]; simp)
    cases t' with
    | nil =>
      have h1 : sub2 (c :: '\n' :: '\n' :: r) =
          c :: sub2 ('\n' :: '\n' :: r) :=
        sub2_cons_copy (Or.inl hcnl)
      have h2 : sub2 ('\n' :: '\n' :: r) = sub2 ('\n' :: r) :=
        sub2_cons_collapse rfl
      have h3 : sub2 ('\n' :: r) = '\n' :: sub2 r := by
        rcases hr with hr | hr
        · subst hr
          rfl
        · exact sub2_cons_copy (Or.inr hr)
      simp only [List.cons_append, List.nil_append]
      rw [h1, h2, h3]
    | cons c2 t'' =>
      have hnl' : '\n' ∉ c2 :: t'' := fun h =>
        hnl (List.mem_cons_of_mem _ h)
      have ih' := ih hnl' (by simp) r hr
      have h1 : sub2 (c :: ((c2 :: t'') ++ '\n' :: '\n' :: r)) =
          c :: sub2 ((c2 :: t'') ++ '\n' :: '\n' :: r) :=
        sub2_cons_copy (Or.inl hcnl)
      calc sub2 ((c :: c2 :: t'') ++ '\n' :: '\n' :: r)
          = c :: sub2 ((c2 :: t'') ++ '\n' :: '\n' :: r) := h1
        _ = c :: ((c2 :: t'') ++ '\n' :: sub2 r) := by rw [ih']
        _ = (c :: c2 :: t'') ++ '\n' :: sub2 r := rfl

theorem sub2_blocks :
    ∀ (ts : List Str), (∀ t ∈ ts, '\n' ∉ t ∧ t ≠ []) →
      sub2 ((ts.map (fun t => t ++ ['\n', '\n'])).flatten) =
        (ts.map (fun t => t ++ ['\n'])).flatten := by
  intro ts
  induction ts with
  | nil => intro _; rfl
  | cons t ts' ih =>
    intro h
    obtain ⟨hnl, hne⟩ := h t (by simp)
    simp only [List.map_cons, List.flatten_cons]
    have hshape : ((ts'.map (fun t => t ++ ['\n', '\n'])).flatten = []) ∨
        ((ts'.map (fun t => t ++ ['\n', '\n'])).flatten).head? ≠
          some '\n' := by
      cases ts' with
      | nil => left; rfl
      | cons t2 ts'' =>
        right
        obtain ⟨hnl2, hne2⟩ := h t2 (by simp)
        simp only [List.map_cons, List.flatten_cons]
        cases ht2 : t2 with
        | nil => exact absurd ht2 hne2
        | cons a t2' =>
          have ha : a ≠ '\n' := by
            intro h'
            exact hnl2 (by rw [ht2, h']; simp)
          simp only [List.cons_append, List.head?_cons]
          intro hcon
          injection hcon with hcon
          exact ha hcon
    have hb : t ++ ['\n', '\n'] ++
        (ts'.map (fun t => t ++ ['\n', '\n'])).flatten =
        t ++ '\n' :: '\n' :: (ts'.map (fun t => t ++ ['\n', '\n'])).flatten := by
      simp
    rw [hb, sub2_block t hnl hne _ (by
      rcases hshape with h' | h'
      · exact Or.inl h'
      · exact Or.inr h'), ih (fun x hx => h x (List.mem_cons_of_mem _ hx))]
    simp

theorem sub2_head : ∀ (l : Str), (sub2 l).head? = l.head? := by
  intro l
  induction l using sub2.induct with
  | case1 => rfl
  | case2 c => rfl
  | case3 c d rest h ih =>
    simp only [Bool.and_eq_true, decide_eq_true_eq] at h
    rw [sub2, if_pos (by rw [h.1, h.2]; decide)]
    rw [ih]
    simp [h.1, h.2]
  | case4 c d rest h ih =>
    rw [sub2, if_neg h]
    rfl

theorem hasNN_sub2 : ∀ (l : Str), hasNN (sub2 l) = false := by
  intro l
  induction l using sub2.induct with
  | case1 => rfl
  | case2 c => rfl
  | case3 c d rest h ih =>
    simp only [Bool.and_eq_true, decide_eq_true_eq] at h
    rw [sub2, if_pos (by rw [h.1, h.2]; decide)]
    exact ih
  | case4 c d rest h ih =>
    rw [sub2, if_neg h]
    rcases hs : sub2 (d :: rest) with _ | ⟨e, x'⟩
    · rfl
    · have he : e = d := by
        have h2 := sub2_head (d :: rest)
        rw [hs] at h2
        injection h2
      subst he
      rw [hasNN]
      rw [hs] at ih
      rw [ih]
      simp only [Bool.or_false]
      by_contra hcon
      rw [Bool.not_eq_false, Bool.and_eq_true, decide_eq_true_eq,
        decide_eq_true_eq] at hcon
      exact h (by rw [hcon.1, hcon.2]; decide)

/-! ### Lines of the output -/

theorem linesOf_append_text {t : Str} (hn : '\n' ∉ t) :
    ∀ r, linesOf (t ++ '\n' :: r) = t :: linesOf r := by
  induction t with
  | nil =>
    intro r
    rw [linesOf, List.nil_append, splitOnChar, if_pos rfl]
    rfl
  | cons c t' ih =>
    intro r
    have hc : c ≠ '\n' := fun h => hn (by rw [h]; simp)
    have hn' : '\n' ∉ t' := fun h => hn (List.mem_cons_of_mem _ h)
    rw [linesOf, List.cons_append, splitOnChar, if_neg hc]
    have := ih hn' r
    rw [linesOf] at this
    rw [this]

theorem linesOf_blocks :
    ∀ (ts : List Str), (∀ t ∈ ts, '\n' ∉ t) →
      linesOf ((ts.map (fun t => t ++ ['\n'])).flatten) = ts ++ [[]] := by
  intro ts
  induction ts with
  | nil => intro _; rfl
  | cons t ts' ih =>
    intro h
    simp only [List.map_cons, List.flatten_cons]
    have hb : t ++ ['\n'] ++ (ts'.map (fun t => t ++ ['\n'])).flatten =
        t ++ '\n' :: (ts'.map (fun t => t ++ ['\n'])).flatten := by
      simp
    rw [hb, linesOf_append_text (h t (by simp)),
      ih (fun x hx => h x (List.mem_cons_of_mem _ hx))]
    rfl

/-! ## Lemmas: file system and summarization loop -/

theorem writeFile_same (fs : FS) (p c : Str) : writeFile fs p c p = some c := by
  simp [writeFile]

theorem writeFile_other (fs : FS) {p q : Str} (c : Str) (h : q ≠ p) :
    writeFile fs p c q = fs q := by
  simp [writeFile, h]

theorem appendFile_same (fs : FS) (p c : Str) :
    appendFile fs p c p = some ((fs p).getD [] ++ c) := by
  simp [appendFile]

theorem appendFile_other (fs : FS) {p q : Str} (c : Str) (h : q ≠ p) :
    appendFile fs p c q = fs q := by
  simp [appendFile, h]

theorem subtitlePath_ne_summaryPath (d : Str) :
    subtitlePath d ≠ summaryPath d := by
  intro h
  rw [subtitlePath, summaryPath] at h
  have := List.append_cancel_left h
  exact absurd this (by decide)

theorem rawSubPath_ne_summaryPath (d : Str) :
    rawSubPath d ≠ summaryPath d := by
  intro h
  rw [rawSubPath, summaryPath] at h
  have := List.append_cancel_left h
  exact absurd this (by decide)

theorem subtitlePath_ne_rawSubPath (d : Str) :
    subtitlePath d ≠ rawSubPath d := by
  intro h
  rw [subtitlePath, rawSubPath] at h
  have := List.append_cancel_left h
  exact absurd this (by decide)

theorem summaryLoop_cons_ok {ε : Type} {client : ChatRequest → Except ε Str}
    {model dir c s : Str} {cs : List Str} {fs : FS}
    (h : summarization client (promptFor c) model 0 1 512 = Except.ok s) :
    summaryLoop client model dir fs (c :: cs) =
      ((summaryLoop client model dir
          (appendFile fs (summaryPath dir) s) cs).1,
       (summaryLoop client model dir
          (appendFile fs (summaryPath dir) s) cs).2.1 + 1,
       (summaryLoop client model dir
          (appendFile fs (summaryPath dir) s) cs).2.2) := by
  rw [summaryLoop, h]

theorem summaryLoop_cons_error {ε : Type}
    {client : ChatRequest → Except ε Str} {model dir c : Str}
    {cs : List Str} {fs : FS} {e : ε}
    (h : summarization client (promptFor c) model 0 1 512 =
      Except.error e) :
    summaryLoop client model dir fs (c :: cs) = (fs, 1, some e) := by
  rw [summaryLoop, h]

/-- The full behaviour of the loop with a never-failing completion API:
one call per chunk, no error, only `summary.txt` touched, and the
summaries appended in order with no separator. -/
theorem summaryLoop_ok {ε : Type} (f : ChatRequest → Str)
    (model dir : Str) :
    ∀ (chunks : List Str) (fs : FS),
      (summaryLoop (fun r => (Except.ok (f r) : Except ε Str)) model dir fs
          chunks).2.1 = chunks.length ∧
      (summaryLoop (fun r => (Except.ok (f r) : Except ε Str)) model dir fs
          chunks).2.2 = none ∧
      (∀ q, q ≠ summaryPath dir →
        (summaryLoop (fun r => (Except.ok (f r) : Except ε Str)) model dir fs
          chunks).1 q = fs q) ∧
      (summaryLoop (fun r => (Except.ok (f r) : Except ε Str)) model dir fs
          chunks).1 (summaryPath dir) =
        (if chunks = [] then fs (summaryPath dir)
         else some ((fs (summaryPath dir)).getD [] ++
           (chunks.map (fun c =>
             f (summarizationRequest (promptFor c) model))).flatten)) := by
  intro chunks
  induction chunks with
  | nil =>
    intro fs
    exact ⟨rfl, rfl, fun q _ => rfl, by rw [if_pos rfl]; rfl⟩
  | cons c cs ih =>
    intro fs
    have hcall : summarization
        (fun r => (Except.ok (f r) : Except ε Str)) (promptFor c) model
        0 1 512 = Except.ok (f (summarizationRequest (promptFor c) model)) :=
      rfl
    rw [summaryLoop_cons_ok hcall]
    obtain ⟨ih1, ih2, ih3, ih4⟩ :=
      ih (appendFile fs (summaryPath dir)
        (f (summarizationRequest (promptFor c) model)))
    refine ⟨by rw [ih1]; rfl, ih2, ?_, ?_⟩
    · intro q hq
      rw [ih3 q hq, appendFile_other fs _ hq]
    · rw [ih4]
      by_cases hcs : cs = []
      · rw [if_pos hcs, if_neg (by simp)]
        rw [appendFile_same, hcs]
        simp
      · rw [if_neg hcs, if_neg (by simp)]
        rw [appendFile_same]
        simp [List.append_assoc]

/-- The full behaviour of the loop when the (k+1)-st call fails: the
first k summaries are already appended (and flushed), the failing call is
made, nothing further happens, and the unprocessed chunks are
irrelevant. -/
theorem summaryLoop_error {ε : Type} (client : ChatRequest → Except ε Str)
    (model dir : Str) :
    ∀ (pre sums : List Str),
      pre.map (fun p =>
        summarization client (promptFor p) model 0 1 512) =
          sums.map Except.ok →
      ∀ (ck : Str) (e : ε),
        summarization client (promptFor ck) model 0 1 512 =
          Except.error e →
      ∀ (post : List Str) (fs : FS),
        (summaryLoop client model dir fs (pre ++ ck :: post)).2.1 =
            pre.length + 1 ∧
        (summaryLoop client model dir fs (pre ++ ck :: post)).2.2 =
            some e ∧
        (∀ q, q ≠ summaryPath dir →
          (summaryLoop client model dir fs (pre ++ ck :: post)).1 q =
            fs q) ∧
        (summaryLoop client model dir fs (pre ++ ck :: post)).1
            (summaryPath dir) =
          (if pre = [] then fs (summaryPath dir)
           else some ((fs (summaryPath dir)).getD [] ++ sums.flatten)) ∧
        (∀ post', summaryLoop client model dir fs (pre ++ ck :: post) =
          summaryLoop client model dir fs (pre ++ ck :: post')) := by
  intro pre
  induction pre with
  | nil =>
    intro sums hpre ck e herr post fs
    have hsums : sums = [] := by
      cases sums with
      | nil => rfl
      | cons s ss => cases hpre
    subst hsums
    rw [List.nil_append, summaryLoop_cons_error herr]
    refine ⟨rfl, rfl, fun q _ => rfl, by rw [if_pos rfl], ?_⟩
    intro post'
    rw [List.nil_append, summaryLoop_cons_error herr]
  | cons c pre' ih =>
    intro sums hpre ck e herr post fs
    cases sums with
    | nil => cases hpre
    | cons s sums' =>
      simp only [List.map_cons, List.cons.injEq] at hpre
      obtain ⟨hc, hpre'⟩ := hpre
      rw [List.cons_append, summaryLoop_cons_ok hc]
      obtain ⟨ih1, ih2, ih3, ih4, ih5⟩ :=
        ih sums' hpre' ck e herr post
          (appendFile fs (summaryPath dir) s)
      refine ⟨by rw [ih1]; rfl, ih2, ?_, ?_, ?_⟩
      · intro q hq
        rw [ih3 q hq, appendFile_other fs _ hq]
      · rw [ih4]
        by_cases hp : pre' = []
        · rw [if_pos hp, if_neg (by simp)]
          have hs' : sums' = [] := by
            subst hp
            cases sums' with
            | nil => rfl
            | cons a as => cases hpre'
          rw [appendFile_same, hs']
          simp
        · rw [if_neg hp, if_neg (by simp)]
          rw [appendFile_same]
          simp [List.append_assoc]
      · intro post'
        obtain ⟨_, _, _, _, jh5⟩ :=
          ih sums' hpre' ck e herr post'
            (appendFile fs (summaryPath dir) s)
        rw [List.cons_append, summaryLoop_cons_ok hc, ih5 post']

/-! ## Claim C3 -/

/-- A subtitle block in the standard index/timestamp/text shape: a real
timestamp line and a single nonempty text line that is neither a pure
digit run nor itself a timestamp line. -/
def WellFormedBlock (b : SrtBlock) : Prop :=
  isTsLine b.ts = true ∧ b.text ≠ [] ∧ '\n' ∉ b.text ∧
    b.text.all Char.isDigit = false ∧ isTsLine b.text = false

instance : DecidablePred WellFormedBlock :=
  fun b => decidable_of_iff
    (isTsLine b.ts = true ∧ b.text ≠ [] ∧ '\n' ∉ b.text ∧
      b.text.all Char.isDigit = false ∧ isTsLine b.text = false)
    Iff.rfl

/-- C3: for every subtitle-file content whose blocks follow the standard
index/timestamp/text pattern, `extract_and_save_text`'s result is exactly
the text lines, each followed by a single newline; consequently it
contains no run of two consecutive newlines (no blank line survives), and
none of its lines matches the timestamp pattern or consists of a block's
sequence index. -/
theorem C3_extract_removes_markup (bs : List SrtBlock)
    (h : ∀ b ∈ bs, WellFormedBlock b) :
    extractText (composeBlocks bs) =
        (bs.map (fun b => b.text ++ ['\n'])).flatten ∧
      hasNN (extractText (composeBlocks bs)) = false ∧
      ∀ l ∈ linesOf (extractText (composeBlocks bs)),
        isTsLine l = false ∧ ∀ b ∈ bs, l ≠ natDigits b.index := by
  have hwf1 : ∀ b ∈ bs, isTsLine b.ts = true ∧ '\n' ∉ b.text :=
    fun b hb => ⟨(h b hb).1, (h b hb).2.2.1⟩
  have hts : ∀ t ∈ bs.map SrtBlock.text, '\n' ∉ t ∧ t ≠ [] := by
    intro t ht
    obtain ⟨b, hb, rfl⟩ := List.mem_map.mp ht
    exact ⟨(h b hb).2.2.1, (h b hb).2.1⟩
  have hmap : (bs.map (fun b => b.text ++ ['\n', '\n'])).flatten =
      ((bs.map SrtBlock.text).map (fun t => t ++ ['\n', '\n'])).flatten := by
    rw [List.map_map]
    rfl
  have hmap2 : ((bs.map SrtBlock.text).map (fun t => t ++ ['\n'])).flatten =
      (bs.map (fun b => b.text ++ ['\n'])).flatten := by
    rw [List.map_map]
    rfl
  have heq : extractText (composeBlocks bs) =
      (bs.map (fun b => b.text ++ ['\n'])).flatten := by
    rw [extractText, sub1, sub1_compose bs hwf1, hmap, sub2_blocks _ hts,
      hmap2]
  refine ⟨heq, ?_, ?_⟩
  · rw [extractText, sub1]
    exact hasNN_sub2 _
  · have hnl : ∀ t ∈ bs.map SrtBlock.text, '\n' ∉ t :=
      fun t ht => (hts t ht).1
    have hlines : linesOf (extractText (composeBlocks bs)) =
        bs.map SrtBlock.text ++ [[]] := by
      rw [heq, ← hmap2, linesOf_blocks _ hnl]
    intro l hl
    rw [hlines] at hl
    rcases List.mem_append.mp hl with hl' | hl'
    · obtain ⟨b, hb, rfl⟩ := List.mem_map.mp hl'
      refine ⟨(h b hb).2.2.2.2, ?_⟩
      intro b' hb' hcon
      have h1 := (h b hb).2.2.2.1
      rw [hcon] at h1
      have h2 := (natDigits_facts b'.index).2
      rw [h1] at h2
      exact absurd h2 (by decide)
    · have hl0 : l = [] := by simpa using hl'
      subst hl0
      refine ⟨by decide, ?_⟩
      intro b' hb' hcon
      exact (natDigits_facts b'.index).1 hcon.symm

/-- Witness for C3 at a concrete two-block subtitle file. -/
theorem C3_witness :
    hasNN (extractText (composeBlocks
      [⟨0, "00:00:01,000 --> 00:00:02,000".toList, "Hello there".toList⟩,
       ⟨1, "00:00:02,500 --> 00:00:04,000".toList,
         "Second line".toList⟩])) = false :=
  (C3_extract_removes_markup
    [⟨0, "00:00:01,000 --> 00:00:02,000".toList, "Hello there".toList⟩,
     ⟨1, "00:00:02,500 --> 00:00:04,000".toList, "Second line".toList⟩]
    (by decide)).2.1

/-! ## Claim C4 -/

/-- C4: for every segment list, the subtitle file written by
`speech_recognition` consists of one block per segment in segment order
(same texts, in order), with 0-based sequential indices `0, 1, 2, …`. -/
theorem C4_subtitle_blocks_sequential {τ : Type} (tsR : τ → τ → Str)
    (segs : List (Segment τ)) (path : Str) (fs : FS) :
    (srtSubtitles tsR segs).map SrtBlock.index = List.range segs.length ∧
      (srtSubtitles tsR segs).map SrtBlock.text = segs.map Segment.text ∧
      (srtSubtitles tsR segs).length = segs.length ∧
      speech_recognition tsR segs path fs path =
        some (composeBlocks (srtSubtitles tsR segs)) := by
  refine ⟨?_, ?_, ?_, ?_⟩
  · rw [srtSubtitles, List.map_map]
    exact List.enum_map_fst segs
  · rw [srtSubtitles, List.map_map]
    rw [show (SrtBlock.text ∘ fun p : Nat × Segment τ =>
        (⟨p.1, tsR p.2.start p.2.stop, p.2.text⟩ : SrtBlock)) =
      Segment.text ∘ Prod.snd from rfl]
    rw [← List.map_map, List.enum_map_snd]
  · simp [srtSubtitles]
  · rw [speech_recognition]
    exact writeFile_same fs path _

/-! ## Claim C5 -/

/-- C5: with a completion API that always succeeds, the summarizer loop
makes exactly one call per chunk; `summary.txt` receives, in chunk order
and with no separator, exactly the completion text returned for each
chunk's prompt (the template with the chunk substituted, sent as the
single user message together with the fixed system message and the
model); no other file is touched. -/
theorem C5_summary_blocks_per_chunk {ε : Type} (f : ChatRequest → Str)
    (model_name output_dir : Str) (chunks : List Str) (fs : FS) :
    (summaryLoop (fun r => (Except.ok (f r) : Except ε Str)) model_name
        output_dir fs chunks).2.1 = chunks.length ∧
      (summaryLoop (fun r => (Except.ok (f r) : Except ε Str)) model_name
        output_dir fs chunks).2.2 = none ∧
      (∀ q, q ≠ summaryPath output_dir →
        (summaryLoop (fun r => (Except.ok (f r) : Except ε Str)) model_name
          output_dir fs chunks).1 q = fs q) ∧
      (summaryLoop (fun r => (Except.ok (f r) : Except ε Str)) model_name
          output_dir fs chunks).1 (summaryPath output_dir) =
        (if chunks = [] then fs (summaryPath output_dir)
         else some ((fs (summaryPath output_dir)).getD [] ++
           (chunks.map (fun c =>
             f (summarizationRequest (promptFor c) model_name))).flatten)) :=
  summaryLoop_ok f model_name output_dir chunks fs

/-! ## Claim C6 -/

/-- C6: if the remote call for the (k+1)-st chunk fails, the loop stops
there with the error: exactly k+1 calls are made, the unprocessed chunks
are irrelevant to the outcome, no path other than `summary.txt` is
touched, and `summary.txt` holds exactly the k summaries already
completed (appended, hence flushed, before the failing call) — nothing
more. -/
theorem C6_error_aborts_loop {ε : Type}
    (client : ChatRequest → Except ε Str) (model_name output_dir : Str)
    (pre sums : List Str) (ck : Str) (e : ε) (post : List Str) (fs : FS)
    (hpre : pre.map (fun p =>
        summarization client (promptFor p) model_name 0 1 512) =
      sums.map Except.ok)
    (herr : summarization client (promptFor ck) model_name 0 1 512 =
      Except.error e) :
    (summaryLoop client model_name output_dir fs (pre ++ ck :: post)).2.1 =
        pre.length + 1 ∧
      (summaryLoop client model_name output_dir fs
        (pre ++ ck :: post)).2.2 = some e ∧
      (∀ q, q ≠ summaryPath output_dir →
        (summaryLoop client model_name output_dir fs
          (pre ++ ck :: post)).1 q = fs q) ∧
      (summaryLoop client model_name output_dir fs (pre ++ ck :: post)).1
          (summaryPath output_dir) =
        (if pre = [] then fs (summaryPath output_dir)
         else some ((fs (summaryPath output_dir)).getD [] ++
           sums.flatten)) ∧
      (∀ post', summaryLoop client model_name output_dir fs
          (pre ++ ck :: post) =
        summaryLoop client model_name output_dir fs (pre ++ ck :: post')) :=
  summaryLoop_error client model_name output_dir pre sums hpre ck e herr
    post fs

/-- A concrete client for the C6 witness: succeeds exactly on the request
built from chunk `"x"`, fails on everything else. -/
def c6client : ChatRequest → Except Unit Str :=
  fun r =>
    if r = summarizationRequest (promptFor "x".toList) gptModelName then
      Except.ok "S".toList
    else Except.error ()

/-- Witness for C6: one good chunk, then a failing one. -/
theorem C6_witness :
    (summaryLoop c6client gptModelName "o".toList (fun _ => none)
        (["x".toList] ++ "y".toList :: [])).2.1 = 1 + 1 :=
  (C6_error_aborts_loop c6client gptModelName "o".toList ["x".toList]
    ["S".toList] "y".toList () [] (fun _ => none)
    (by rfl) (by rfl)).1

/-! ## Claim C7 -/

/-- C7: on an empty segment list the extracted plain text is empty,
`chunk_text` yields the empty chunk sequence, the summarizer loop makes
zero API calls and reports no error, and `summary.txt` is left exactly as
it was (in particular never created). -/
theorem C7_empty_transcription {τ ε : Type} (tsR : τ → τ → Str)
    (client : ChatRequest → Except ε Str) (output_dir : Str) (fs : FS) :
    extractText (composeBlocks (srtSubtitles tsR
        ([] : List (Segment τ)))) = [] ∧
      chunk_text [] 512 = some [] ∧
      (runPipeline tsR ([] : List (Segment τ)) client output_dir fs).2.1 =
        0 ∧
      (runPipeline tsR ([] : List (Segment τ)) client output_dir fs).2.2 =
        none ∧
      (runPipeline tsR ([] : List (Segment τ)) client output_dir fs).1
          (summaryPath output_dir) = fs (summaryPath output_dir) := by
  have h2 : chunk_text ([] : Str) 512 = some [] := by decide
  have hsrt : composeBlocks (srtSubtitles tsR ([] : List (Segment τ))) =
      [] := rfl
  have hread : extractText (((writeFile fs (subtitlePath output_dir)
      ([] : Str)) (subtitlePath output_dir)).getD []) = [] := by
    rw [writeFile_same]
    rfl
  have hrp : runPipeline tsR ([] : List (Segment τ)) client output_dir fs =
      summaryLoop client gptModelName output_dir
        (writeFile (writeFile fs (subtitlePath output_dir) [])
          (rawSubPath output_dir) []) [] := by
    simp only [runPipeline, speech_recognition, extract_and_save_text,
      hsrt, hread, h2, Option.getD_some]
  have hloop : (summaryLoop client gptModelName output_dir
      (writeFile (writeFile fs (subtitlePath output_dir) [])
        (rawSubPath output_dir) []) []).1 =
      writeFile (writeFile fs (subtitlePath output_dir) [])
        (rawSubPath output_dir) [] := rfl
  refine ⟨rfl, h2, ?_, ?_, ?_⟩
  · rw [hrp]
    rfl
  · rw [hrp]
    rfl
  · rw [hrp, hloop,
      writeFile_other _ _ (rawSubPath_ne_summaryPath output_dir).symm,
      writeFile_other _ _ (subtitlePath_ne_summaryPath output_dir).symm]

/-! ## Claim C8 -/

/-- C8: re-running the pipeline over an existing output directory
replaces `subtitle.srt` and `raw_sub.txt` with the new run's contents
(write mode), while the prior contents of `summary.txt` survive as a
prefix, with the new summaries appended after them (append mode). -/
theorem C8_rerun_asymmetry {τ ε : Type} (tsR : τ → τ → Str)
    (segs : List (Segment τ)) (f : ChatRequest → Str) (output_dir : Str)
    (fs : FS) (old : Str)
    (hold : fs (summaryPath output_dir) = some old) :
    (runPipeline tsR segs (fun r => (Except.ok (f r) : Except ε Str))
        output_dir fs).1 (subtitlePath output_dir) =
      some (composeBlocks (srtSubtitles tsR segs)) ∧
    (runPipeline tsR segs (fun r => (Except.ok (f r) : Except ε Str))
        output_dir fs).1 (rawSubPath output_dir) =
      some (extractText (composeBlocks (srtSubtitles tsR segs))) ∧
    ∃ tail,
      (runPipeline tsR segs (fun r => (Except.ok (f r) : Except ε Str))
          output_dir fs).1 (summaryPath output_dir) =
        some (old ++ tail) := by
  have hrp : runPipeline tsR segs
      (fun r => (Except.ok (f r) : Except ε Str)) output_dir fs =
      summaryLoop (fun r => (Except.ok (f r) : Except ε Str)) gptModelName
        output_dir
        (writeFile (writeFile fs (subtitlePath output_dir)
            (composeBlocks (srtSubtitles tsR segs)))
          (rawSubPath output_dir)
          (extractText (composeBlocks (srtSubtitles tsR segs))))
        ((chunk_text (extractText (composeBlocks (srtSubtitles tsR segs)))
          512).getD []) := by
    simp only [runPipeline, speech_recognition, extract_and_save_text,
      writeFile_same, Option.getD_some]
  obtain ⟨_, _, L3, L4⟩ := summaryLoop_ok (ε := ε) f gptModelName output_dir
    ((chunk_text (extractText (composeBlocks (srtSubtitles tsR segs)))
      512).getD [])
    (writeFile (writeFile fs (subtitlePath output_dir)
        (composeBlocks (srtSubtitles tsR segs)))
      (rawSubPath output_dir)
      (extractText (composeBlocks (srtSubtitles tsR segs))))
  refine ⟨?_, ?_, ?_⟩
  · rw [hrp, L3 _ (subtitlePath_ne_summaryPath output_dir),
      writeFile_other _ _ (subtitlePath_ne_rawSubPath output_dir),
      writeFile_same]
  · rw [hrp, L3 _ (rawSubPath_ne_summaryPath output_dir), writeFile_same]
  · have hfs2 : (writeFile (writeFile fs (subtitlePath output_dir)
        (composeBlocks (srtSubtitles tsR segs)))
      (rawSubPath output_dir)
      (extractText (composeBlocks (srtSubtitles tsR segs))))
        (summaryPath output_dir) = some old := by
      rw [writeFile_other _ _ (rawSubPath_ne_summaryPath output_dir).symm,
        writeFile_other _ _ (subtitlePath_ne_summaryPath output_dir).symm,
        hold]
    rw [hrp, L4, hfs2]
    by_cases hc : (chunk_text (extractText (composeBlocks
        (srtSubtitles tsR segs))) 512).getD [] = []
    · rw [if_pos hc]
      exact ⟨[], by simp⟩
    · rw [if_neg hc]
      exact ⟨_, rfl⟩

/-- A concrete prior file system for the C8 witness: `summary.txt`
already holds `"OLD"`. -/
def c8fs : FS :=
  fun q => if q = summaryPath "o".toList then some "OLD".toList else none

/-- Witness for C8: a one-segment re-run over `c8fs` keeps `"OLD"` as a
prefix of `summary.txt`. -/
theorem C8_witness :
    ∃ tail,
      (runPipeline (fun _ _ => "00:00:00,000 --> 00:00:01,000".toList)
          [(⟨(), (), "Hi".toList⟩ : Segment Unit)]
          (fun r => (Except.ok ((fun _ => "S".toList) r) :
            Except Unit Str))
          "o".toList c8fs).1 (summaryPath "o".toList) =
        some ("OLD".toList ++ tail) :=
  (C8_rerun_asymmetry (fun _ _ => "00:00:00,000 --> 00:00:01,000".toList)
    [(⟨(), (), "Hi".toList⟩ : Segment Unit)] (fun _ => "S".toList)
    "o".toList c8fs "OLD".toList (by decide)).2.2

/-! ## Claim C9 -/

/-- C9: the request `summarization` sends is independent of its
`temperature`, `top_p` and `max_tokens` parameters: it is exactly the
request built from prompt and model, so any two calls differing only in
those three parameters produce identical API interactions. -/
theorem C9_tuning_params_ignored {ε : Type}
    (client : ChatRequest → Except ε Str) (prompt model_name : Str)
    (t1 t2 p1 p2 : ℚ) (m1 m2 : Nat) :
    summarization client prompt model_name t1 p1 m1 =
        client (summarizationRequest prompt model_name) ∧
      summarization client prompt model_name t1 p1 m1 =
        summarization client prompt model_name t2 p2 m2 :=
  ⟨rfl, rfl⟩

end Sum4u
